import Mathlib

/-! # subtrie: the suffix-counting trie of `main.go`

A shallow embedding of `src/main.go` and the properties of its suffix trie.

Conventions of the embedding.

* A Go `[]byte` or `string` is a `List Nat` (`Bytes`); a byte is a natural number below 256.
* Code that can panic in Go (an index or a slice bound out of range, a negative `make`)
  returns `Option`; `none` is the panic.
* `TrieNode.Children`, a Go `map[string]*TrieNode`, is an association list. A key is looked
  up at its first entry and a fresh key is appended. Go leaves the iteration order of a map
  unspecified; the model iterates in list order, and what is stated about the written
  output is stated for the output as a multiset.
* `TrieNode.Count` is a Go `int` (64 bits). `insertLoopWrap`, `processLineWrap` and
  `processLinesWrap` have `node.Count++` as the wrapping increment of a Go `int`;
  `insertLoop`, `processLine` and `processLines` have it as the increment of an integer.
  The two agree wherever no Count on the path of the line is `maxInt64`
  (`insertLoopWrap_eq`), and so on every trie read from the empty root out of at most
  `maxInt64` lines (`processLinesWrap_eq_processLines`), where a Count is bounded by the
  number of lines read. What an insertion does to the Counts of an arbitrary trie is
  stated over the wrapping increment.
* The `bufio.Writer` is the list of the strings handed to `WriteString`, in order.
-/

namespace Subtrie

/-- Go `[]byte` and `string`: a list of byte values. -/
abbrev Bytes := List Nat

/-! ## trimSpaces (main.go 120-130) -/

/-- The test `b == ' ' || b == '\t' || b == '\r' || b == '\n'` of `trimSpaces`. -/
def isSpaceByte (c : Nat) : Bool := c == 32 || c == 9 || c == 13 || c == 10

/-- First loop of `trimSpaces`:
`for start <= end && isSpace(b[start]) { start++ }`. -/
def trimStart (b : Bytes) (e : Int) (start : Nat) : Option Nat :=
  if (start : Int) ≤ e then
    match b[start]? with
    | none => none
    | some c => if isSpaceByte c then trimStart b e (start + 1) else some start
  else some start
termination_by (e + 1 - (start : Int)).toNat
decreasing_by all_goals simp_wf; omega

/-- Second loop of `trimSpaces`:
`for end >= start && isSpace(b[end]) { end-- }`. -/
def trimEnd (b : Bytes) (start : Nat) (e : Int) : Option Int :=
  if e ≥ (start : Int) then
    match b[e.toNat]? with
    | none => none
    | some c => if isSpaceByte c then trimEnd b start (e - 1) else some e
  else some e
termination_by (e + 1 - (start : Int)).toNat
decreasing_by all_goals simp_wf; omega

/-- Go slice expression `b[lo:hi]` on a slice whose capacity is its length. -/
def slice (b : Bytes) (lo hi : Int) : Option Bytes :=
  if 0 ≤ lo ∧ lo ≤ hi ∧ hi ≤ (b.length : Int) then
    some ((b.drop lo.toNat).take (hi.toNat - lo.toNat))
  else none

/-- Function `trimSpaces` of main.go. -/
def trimSpaces (b : Bytes) : Option Bytes :=
  let e0 : Int := (b.length : Int) - 1
  match trimStart b e0 0 with
  | none => none
  | some start =>
    match trimEnd b start e0 with
    | none => none
    | some e => slice b start (e + 1)

/-! ## The case fold of processLine (main.go 92-95) -/

/-- The entries of Go's `unicode.CaseRanges` table that lie below U+0100, as
`(Lo, Hi, delta to lower case)`; the table is sorted and its ranges are disjoint. -/
def caseRangesLatin1 : List (Nat × Nat × Int) :=
  [ (0x41, 0x5A, 32), (0x61, 0x7A, 0), (0xB5, 0xB5, 0), (0xC0, 0xD6, 32),
    (0xD8, 0xDE, 32), (0xE0, 0xF6, 0), (0xF8, 0xFE, 0), (0xFF, 0xFF, 0) ]

/-- The search of `unicode.to` for the range holding `r`; a rune in no range maps to
itself. -/
def caseLookup : List (Nat × Nat × Int) → Nat → Nat
  | [], r => r
  | (lo, hi, d) :: rest, r =>
    if lo ≤ r ∧ r ≤ hi then ((r : Int) + d).toNat else caseLookup rest r

/-- Go's `unicode.ToLower` on the runes `rune(b)` of a byte `b`, that is on 0..255:
the ASCII fast path, then the case-range table. -/
def unicodeToLower (r : Nat) : Nat :=
  if r ≤ 0x7F then
    if 0x41 ≤ r ∧ r ≤ 0x5A then r + (0x61 - 0x41) else r
  else caseLookup caseRangesLatin1 r

/-- The per-byte fold `byte(unicode.ToLower(rune(b)))`. -/
def toLowerByte (b : Nat) : Nat := unicodeToLower b % 256

/-- The loop `for i := 0; i < len(line); i++ { line[i] = byte(unicode.ToLower(rune(line[i]))) }`:
every position is overwritten by the fold of its own byte. -/
def lowerInPlace (line : Bytes) : Bytes := line.map toLowerByte

/-! ## splitLabels (main.go 132-143) -/

/-- The loop of `splitLabels`, from index `i` with the current `start` and `labels`. -/
def splitLoop (line : Bytes) (i : Nat) (start : Nat) (labels : List Bytes) :
    Option (List Bytes) :=
  if i ≤ line.length then
    if i = line.length then
      (slice line start i).bind fun s => splitLoop line (i + 1) (i + 1) (labels ++ [s])
    else
      (line.get? i).bind fun c =>
        if c = 46 then
          (slice line start i).bind fun s => splitLoop line (i + 1) (i + 1) (labels ++ [s])
        else splitLoop line (i + 1) start labels
  else some labels
termination_by line.length + 1 - i
decreasing_by all_goals simp_wf; omega

/-- Function `splitLabels` of main.go. -/
def splitLabels (line : Bytes) : Option (List Bytes) := splitLoop line 0 0 []

/-! ## The label reversal of processLine (main.go 100-103) -/

/-- The loop `for i, j := 0, len(labels)-1; i < j; i, j = i+1, j-1 { swap }`. -/
def reverseLoop (labels : List Bytes) (i : Nat) (j : Int) : Option (List Bytes) :=
  if (i : Int) < j then
    match labels[i]?, labels[j.toNat]? with
    | some a, some b => reverseLoop ((labels.set i b).set j.toNat a) (i + 1) (j - 1)
    | _, _ => none
  else some labels
termination_by (j - (i : Int)).toNat
decreasing_by all_goals simp_wf; omega

/-- The in-place reversal of the labels in `processLine`. -/
def reverseLabels (labels : List Bytes) : Option (List Bytes) :=
  reverseLoop labels 0 ((labels.length : Int) - 1)

/-! ## joinLabels and labelsToDomain (main.go 156-184) -/

/-- Go `copy(buf[pos:], src)`: `buf[pos:]` panics when `pos > len(buf)`; otherwise the first
`min(len(buf) - pos, len(src))` bytes of `src` overwrite `buf` from `pos` on. -/
def copyAt (buf : Bytes) (pos : Nat) (src : Bytes) : Option Bytes :=
  if pos ≤ buf.length then
    some (buf.take pos ++ src.take (buf.length - pos)
      ++ buf.drop (pos + min src.length (buf.length - pos)))
  else none

/-- The second loop of `joinLabels`, `for i, label := range labels`, at index `i` of the `n`
labels, with the labels still to visit, the buffer and the write position. -/
def joinLoop (n : Nat) : List Bytes → Nat → Bytes → Nat → Option Bytes
  | [], _, buf, _ => some buf
  | label :: rest, i, buf, pos =>
    match copyAt buf pos label with
    | none => none
    | some buf1 =>
      let pos1 := pos + label.length
      if (i : Int) < (n : Int) - 1 then
        if pos1 < buf1.length then joinLoop n rest (i + 1) (buf1.set pos1 46) (pos1 + 1)
        else none
      else joinLoop n rest (i + 1) buf1 pos1

/-- The value of `totalLen` in `joinLabels` before the allocation. -/
def joinTotalLen (labels : List Bytes) : Int :=
  labels.foldl (fun acc label => acc + ((label.length : Int) + 1)) 0 - 1

/-- Function `joinLabels` of main.go; `make([]byte, totalLen)` panics on a negative length. -/
def joinLabels (labels : List Bytes) : Option Bytes :=
  let totalLen := joinTotalLen labels
  if totalLen < 0 then none
  else joinLoop labels.length labels 0 (List.replicate totalLen.toNat 0) 0

/-- The loop of `labelsToDomain`: `domainParts[i] = labels[len(labels)-1-i]` for the `k`
indices from `i` on. -/
def domainPartsFrom (labels : List Bytes) : Nat → Nat → Option (List Bytes)
  | 0, _ => some []
  | k + 1, i =>
    match labels.get? (labels.length - 1 - i) with
    | none => none
    | some l => (domainPartsFrom labels k (i + 1)).map (fun ps => l :: ps)

/-- Function `labelsToDomain` of main.go. -/
def labelsToDomain (labels : List Bytes) : Option Bytes :=
  (domainPartsFrom labels labels.length 0).bind joinLabels

/-! ## The trie (main.go 12-15) and processLine (main.go 86-118) -/

/-- Struct `TrieNode` of main.go: `Count int` and `Children map[string]*TrieNode`. -/
inductive TrieNode where
  | mk (Count : Int) (Children : List (Bytes × TrieNode)) : TrieNode

/-- Field `Count`. -/
def TrieNode.Count : TrieNode → Int
  | .mk c _ => c

/-- Field `Children`. -/
def TrieNode.Children : TrieNode → List (Bytes × TrieNode)
  | .mk _ ch => ch

/-- Map read `m[label]` with its `ok` flag. -/
def lookupChild : List (Bytes × TrieNode) → Bytes → Option TrieNode
  | [], _ => none
  | (k, v) :: rest, label => if k = label then some v else lookupChild rest label

/-- Map write `m[label] = v`. -/
def setChild : List (Bytes × TrieNode) → Bytes → TrieNode → List (Bytes × TrieNode)
  | [], label, v => [(label, v)]
  | (k, c) :: rest, label, v =>
    if k = label then (label, v) :: rest else (k, c) :: setChild rest label v

/-- The root made in `main`: `&TrieNode{Children: make(map[string]*TrieNode)}`. -/
def emptyRoot : TrieNode := .mk 0 []

/-- The insertion loop of `processLine` (main.go 105-117). At each label the child is the
one stored under the label, or a new `&TrieNode{}` when there is none; its Count is
incremented and the loop goes on below it. The child is held by pointer in Go, so what
the rest of the loop does to it is what the map holds afterwards. The increment is that
of an integer: it is the Go increment as long as the Count is below `maxInt64`, which
holds on every trie read from the empty root; `insertLoopWrap` has the wrap-around. -/
def insertLoop : List Bytes → TrieNode → TrieNode
  | [], node => node
  | label :: rest, .mk count children =>
    match (lookupChild children label).getD (.mk 0 []) with
    | .mk c ch => .mk count (setChild children label (insertLoop rest (.mk (c + 1) ch)))

/-- Function `processLine` of main.go; the result is the trie under `root` afterwards. -/
def processLine (line : Bytes) (root : TrieNode) : Option TrieNode :=
  match trimSpaces line with
  | none => none
  | some line1 =>
    if line1.length = 0 then some root
    else
      match splitLabels (lowerInPlace line1) with
      | none => none
      | some labels =>
        match reverseLabels labels with
        | none => none
        | some labels1 => some (insertLoop labels1 root)

/-- The reading loop of `main` as far as the trie goes: `processLine` on each line in turn. -/
def processLines : List Bytes → TrieNode → Option TrieNode
  | [], root => some root
  | line :: rest, root => (processLine line root).bind (processLines rest)

/-! ## The increment `node.Count++` as a Go `int` (main.go 13, 116) -/

/-- The largest Go `int` (64 bits), `math.MaxInt64`. -/
def maxInt64 : Int := 9223372036854775807

/-- The smallest Go `int` (64 bits), `math.MinInt64`. -/
def minInt64 : Int := -9223372036854775808

/-- The value a Go `int` (64 bits) holds for the integer `x`: `x` wrapped around into
`minInt64 .. maxInt64`. -/
def wrapInt64 (x : Int) : Int :=
  (x + 9223372036854775808) % 18446744073709551616 - 9223372036854775808

/-- The insertion loop of `processLine` (main.go 105-117) with `node.Count++` as the
increment of a Go `int`, which wraps around at `maxInt64`; in every other respect it is
`insertLoop`. -/
def insertLoopWrap : List Bytes → TrieNode → TrieNode
  | [], node => node
  | label :: rest, .mk count children =>
    match (lookupChild children label).getD (.mk 0 []) with
    | .mk c ch =>
      .mk count (setChild children label (insertLoopWrap rest (.mk (wrapInt64 (c + 1)) ch)))

/-- Function `processLine` of main.go over `insertLoopWrap`: the trie under `root`
afterwards, with every Count a Go `int`. -/
def processLineWrap (line : Bytes) (root : TrieNode) : Option TrieNode :=
  match trimSpaces line with
  | none => none
  | some line1 =>
    if line1.length = 0 then some root
    else
      match splitLabels (lowerInPlace line1) with
      | none => none
      | some labels =>
        match reverseLabels labels with
        | none => none
        | some labels1 => some (insertLoopWrap labels1 root)

/-- The reading loop of `main` over `processLineWrap`. -/
def processLinesWrap : List Bytes → TrieNode → Option TrieNode
  | [], root => some root
  | line :: rest, root => (processLineWrap line root).bind (processLinesWrap rest)

/-! ## traverseTrie (main.go 145-154) -/

mutual
/-- Function `traverseTrie` of main.go; `w` is what has been written so far. -/
def traverseTrie : TrieNode → List Bytes → Int → List Bytes → Option (List Bytes)
  | .mk count children, labels, threshold, w =>
    if count ≥ threshold ∧ labels.length > 0 then
      match labelsToDomain labels with
      | none => none
      | some suffix => traverseChildren children labels threshold (w ++ [suffix ++ [10]])
    else traverseChildren children labels threshold w
/-- The loop `for label, child := range node.Children` of `traverseTrie`. -/
def traverseChildren : List (Bytes × TrieNode) → List Bytes → Int → List Bytes →
    Option (List Bytes)
  | [], _, _, w => some w
  | (label, child) :: rest, labels, threshold, w =>
    match traverseTrie child (labels ++ [label]) threshold w with
    | none => none
    | some w1 => traverseChildren rest labels threshold w1
end

/-- The program after its flags and files: build the trie from the lines, then
`traverseTrie(root, []string{}, threshold, writer)` on an empty writer. -/
def run (lines : List Bytes) (threshold : Int) : Option (List Bytes) :=
  (processLines lines emptyRoot).bind fun root => traverseTrie root [] threshold []

/-! # Closed forms and reference definitions -/

/-- Closed form of `trimSpaces`: the leading and the trailing run of space bytes
removed. -/
def trimSpec (b : Bytes) : Bytes := (b.dropWhile isSpaceByte).rdropWhile isSpaceByte

/-- Closed form of `splitLabels`: the maximal runs of `line` without a `'.'`, in order. -/
def splitDots : Bytes → List Bytes
  | [] => [[]]
  | c :: rest =>
    if c = 46 then [] :: splitDots rest
    else
      match splitDots rest with
      | [] => [[c]]
      | l :: ls => (c :: l) :: ls

/-- The labels of `cur ++ rest` when `cur` holds no `'.'`: `cur` goes in front of the first
label of `rest`. -/
def splitFrom (cur rest : Bytes) : List Bytes :=
  match splitDots rest with
  | [] => [cur]
  | l :: ls => (cur ++ l) :: ls

/-- Closed form of `joinLabels` on a non-empty list: the labels with a `'.'` between
neighbours. -/
def joinDots : List Bytes → Bytes
  | [] => []
  | [l] => l
  | l :: l2 :: rest => l ++ 46 :: joinDots (l2 :: rest)

/-- A line of space bytes only (the empty line included). -/
def isBlank (line : Bytes) : Bool := line.all isSpaceByte

/-- The normalised form of a line: trimmed, then folded to lower case. -/
def normalise (line : Bytes) : Bytes := (trimSpec line).map toLowerByte

/-- The label path of a line: the labels of its normalised form, top-level label first. -/
def labelPath (line : Bytes) : List Bytes := (splitDots (normalise line)).reverse

/-- The node reached from `node` along a label path, if there is one. -/
def findNode : TrieNode → List Bytes → Option TrieNode
  | node, [] => some node
  | .mk _ children, label :: rest =>
    match lookupChild children label with
    | none => none
    | some child => findNode child rest

/-- The Count of the node at a label path, 0 when there is no such node. -/
def countAt (t : TrieNode) (p : List Bytes) : Int :=
  match findNode t p with
  | none => 0
  | some n => n.Count

/-- Whether there is a node at the label path. -/
def present (t : TrieNode) (p : List Bytes) : Bool := (findNode t p).isSome

/-- Whether the label path of a non-blank line begins with `p`. -/
def beginsWith (p : List Bytes) (line : Bytes) : Bool :=
  !isBlank line && decide (p <+: labelPath line)

/-- The number of input lines whose label path begins with `p`, each line counted on
its own. -/
def linesThrough (lines : List Bytes) (p : List Bytes) : Nat :=
  lines.countP (beginsWith p)

mutual
/-- Every node of the trie under `t`, `t` itself first, as the pair of its label path from
`t` and its Count. -/
def nodes : TrieNode → List (List Bytes × Int)
  | .mk count children => ([], count) :: childNodes children
/-- The nodes under the entries of a `Children` map, each entry's key in front of the
paths below it. -/
def childNodes : List (Bytes × TrieNode) → List (List Bytes × Int)
  | [] => []
  | (label, child) :: rest =>
    (nodes child).map (fun pc => (label :: pc.1, pc.2)) ++ childNodes rest
end

/-- The line written for the node at a non-empty label path: the labels in reverse order
joined by `'.'`, then a newline. -/
def emitted (p : List Bytes) : Bytes := joinDots p.reverse ++ [10]

/-- What a traversal from a node at path `labels` is to write: one line for each node
under it that is not at the empty path and whose Count reaches the threshold. -/
def report (labels : List Bytes) (threshold : Int) (ns : List (List Bytes × Int)) :
    List Bytes :=
  (ns.filter (fun pc => decide (pc.2 ≥ threshold) && decide (labels ++ pc.1 ≠ []))).map
    (fun pc => emitted (labels ++ pc.1))

/-- A trie whose `Children` maps are maps: no key twice in any of them. -/
inductive UniqueKeys : TrieNode → Prop
  | mk (count : Int) (children : List (Bytes × TrieNode)) :
      (children.map Prod.fst).Nodup → (∀ kv ∈ children, UniqueKeys kv.2) →
      UniqueKeys (.mk count children)

/-- Reference semantics: the domain suffixes of a normalised line, the last `k >= 1` of its
dot-separated labels joined by `'.'`, for every `k` up to the number of labels. -/
def suffixesOf (line : Bytes) : List Bytes :=
  ((splitDots (normalise line)).tails.filter (fun tl => decide (tl ≠ []))).map joinDots

/-- Reference semantics: `s` is a domain suffix of the non-blank line. -/
def hasSuffix (s : Bytes) (line : Bytes) : Bool :=
  !isBlank line && decide (s ∈ suffixesOf line)

/-- Reference semantics: the number of input lines that have `s` as a domain suffix,
identical lines counted separately. -/
def occurrences (lines : List Bytes) (s : Bytes) : Nat :=
  lines.countP (hasSuffix s)

/-- Closed form of `processLines`: the blank lines skipped, the label path of every other
line inserted, in order. -/
def buildTrie : List Bytes → TrieNode → TrieNode
  | [], root => root
  | line :: rest, root =>
    buildTrie rest (if isBlank line = true then root else insertLoop (labelPath line) root)

/-- Two byte values that are equal or are the upper-case and the lower-case form of one
ASCII letter. -/
def sameLetter (a b : Nat) : Bool :=
  a == b || (decide (65 ≤ a ∧ a ≤ 90) && b == a + 32) || (decide (65 ≤ b ∧ b ≤ 90) && a == b + 32)

/-- Two lines that differ in the case of ASCII letters only. -/
def caseVariant (x y : Bytes) : Prop :=
  List.Forall₂ (fun a b => sameLetter a b = true) x y

mutual
/-- Reference traversal with pruning: traverseTrie, except that at a node below the root
whose Count is under the threshold nothing is written and its subtree is not visited. -/
def traversePruned : TrieNode → List Bytes → Int → List Bytes → Option (List Bytes)
  | .mk count children, labels, threshold, w =>
    if count < threshold ∧ labels.length > 0 then some w
    else if count ≥ threshold ∧ labels.length > 0 then
      match labelsToDomain labels with
      | none => none
      | some suffix => prunedChildren children labels threshold (w ++ [suffix ++ [10]])
    else prunedChildren children labels threshold w
/-- The loop over the children in `traversePruned`. -/
def prunedChildren : List (Bytes × TrieNode) → List Bytes → Int → List Bytes →
    Option (List Bytes)
  | [], _, _, w => some w
  | (label, child) :: rest, labels, threshold, w =>
    match traversePruned child (labels ++ [label]) threshold w with
    | none => none
    | some w1 => prunedChildren rest labels threshold w1
end

/-- A subtree whose Counts do not rise with depth: the Count of a node is not negative and
no child has a higher Count than its parent, at every node of the subtree. -/
inductive Descending : TrieNode → Prop
  | mk (count : Int) (children : List (Bytes × TrieNode)) :
      0 ≤ count → (∀ kv ∈ children, kv.2.Count ≤ count) →
      (∀ kv ∈ children, Descending kv.2) → Descending (.mk count children)

/-- The Label Splitter inside processLine (main.go 87-103): the labels it goes on to
insert for a line, top-level label first; no label for a line it skips. -/
def lineLabels (line : Bytes) : Option (List Bytes) :=
  match trimSpaces line with
  | none => none
  | some line1 =>
    if line1.length = 0 then some []
    else
      match splitLabels (lowerInPlace line1) with
      | none => none
      | some labels => reverseLabels labels

/-- Reference copy for the bounds of `joinLabels`: `copyAt`, with the demand that every byte
of `src` has an index of `buf` to land on, `pos + len(src) <= len(buf)`. -/
def copyChecked (buf : Bytes) (pos : Nat) (src : Bytes) : Option Bytes :=
  if pos + src.length ≤ buf.length then copyAt buf pos src else none

/-- Reference loop for the bounds of `joinLabels`: `joinLoop` with `copyChecked` for
`copyAt`, so that it returns only when no copy was cut short. -/
def joinLoopChecked (n : Nat) : List Bytes → Nat → Bytes → Nat → Option Bytes
  | [], _, buf, _ => some buf
  | label :: rest, i, buf, pos =>
    match copyChecked buf pos label with
    | none => none
    | some buf1 =>
      let pos1 := pos + label.length
      if (i : Int) < (n : Int) - 1 then
        if pos1 < buf1.length then joinLoopChecked n rest (i + 1) (buf1.set pos1 46) (pos1 + 1)
        else none
      else joinLoopChecked n rest (i + 1) buf1 pos1

/-- Reference `joinLabels` for its bounds: `joinLabels` over `joinLoopChecked`. -/
def joinLabelsChecked (labels : List Bytes) : Option Bytes :=
  let totalLen := joinTotalLen labels
  if totalLen < 0 then none
  else joinLoopChecked labels.length labels 0 (List.replicate totalLen.toNat 0) 0

/-! # Proofs -/

/-! ## trimSpaces -/

theorem trimStart_eq (b : Bytes) : ∀ (n start : Nat), b.length - start = n → start ≤ b.length →
    trimStart b ((b.length : Int) - 1) start
      = some (start + ((b.drop start).takeWhile isSpaceByte).length) := by
  intro n
  induction n with
  | zero =>
    intro start h hle
    have hs : start = b.length := by omega
    subst hs
    rw [trimStart]
    simp
  | succ n ih =>
    intro start h hle
    have hlt : start < b.length := by omega
    rw [trimStart]
    have h1 : (start : Int) ≤ (b.length : Int) - 1 := by omega
    rw [if_pos h1]
    have hd : b.drop start = b[start] :: b.drop (start + 1) := List.drop_eq_getElem_cons hlt
    rw [List.getElem?_eq_getElem hlt]
    simp only
    rw [hd]
    by_cases hc : isSpaceByte b[start] = true
    · rw [if_pos hc, ih (start + 1) (by omega) (by omega), List.takeWhile_cons, if_pos hc,
        List.length_cons]
      congr 1; omega
    · rw [if_neg hc, List.takeWhile_cons, if_neg hc]
      rfl

theorem trimEnd_eq (b : Bytes) (start : Nat) : ∀ (k : Nat), start + k ≤ b.length →
    trimEnd b start ((start : Int) + k - 1)
      = some ((start : Int) + ((((b.drop start).take k).rdropWhile isSpaceByte).length : Int) - 1) := by
  intro k
  induction k with
  | zero =>
    intro _
    rw [trimEnd]
    simp
  | succ k ih =>
    intro hle
    rw [trimEnd]
    have h1 : (start : Int) + ((k + 1 : Nat) : Int) - 1 ≥ (start : Int) := by push_cast; omega
    rw [if_pos h1]
    have hidx : ((start : Int) + ((k + 1 : Nat) : Int) - 1).toNat = start + k := by push_cast; omega
    have hlt : start + k < b.length := by omega
    rw [hidx, List.getElem?_eq_getElem hlt]
    simp only
    have hk : k < (b.drop start).length := by simp; omega
    have htake : (b.drop start).take (k + 1) = (b.drop start).take k ++ [b[start + k]] := by
      rw [List.take_succ, List.getElem?_eq_getElem hk]
      simp
    rw [htake]
    by_cases hc : isSpaceByte b[start + k] = true
    · rw [if_pos hc]
      have e1 : (start : Int) + ((k + 1 : Nat) : Int) - 1 - 1 = (start : Int) + (k : Int) - 1 := by
        push_cast; omega
      rw [e1, ih (by omega)]
      rw [List.rdropWhile_concat_pos _ _ _ hc]
    · rw [if_neg hc]
      rw [List.rdropWhile_concat_neg _ _ _ hc]
      simp; omega

theorem trimSpaces_eq (b : Bytes) : trimSpaces b = some (trimSpec b) := by
  unfold trimSpaces
  simp only
  rw [trimStart_eq b b.length 0 (by simp) (by simp)]
  simp only [List.drop_zero, Nat.zero_add]
  set s := (b.takeWhile isSpaceByte).length with hs
  have hsle : s ≤ b.length := (List.takeWhile_prefix isSpaceByte).length_le
  have hdrop : b.drop s = b.dropWhile isSpaceByte := by
    conv_lhs => rw [← List.takeWhile_append_dropWhile isSpaceByte b]
    rw [List.drop_left']
    exact hs.symm
  have e0 : (b.length : Int) - 1 = (s : Int) + ((b.length - s : Nat) : Int) - 1 := by omega
  rw [e0, trimEnd_eq b s (b.length - s) (by omega)]
  simp only
  have htk : (b.drop s).take (b.length - s) = b.drop s := by
    apply List.take_of_length_le; simp
  rw [htk, hdrop]
  unfold slice trimSpec
  set r := (b.dropWhile isSpaceByte).rdropWhile isSpaceByte with hr
  have hpre : r <+: b.dropWhile isSpaceByte := List.rdropWhile_prefix _ _
  have hlen : r.length ≤ (b.dropWhile isSpaceByte).length := hpre.length_le
  have hdl : (b.dropWhile isSpaceByte).length = b.length - s := by rw [← hdrop]; simp
  rw [if_pos (by omega)]
  congr 1
  have e1 : ((s : Int) + (r.length : Int) - 1 + 1).toNat - (s : Int).toNat = r.length := by
    simp; omega
  rw [e1]
  have : (s : Int).toNat = s := by simp
  rw [this, hdrop]
  exact (List.prefix_iff_eq_take.mp hpre).symm

/-! ## splitLabels -/

theorem splitDots_ne_nil (l : Bytes) : splitDots l ≠ [] := by
  cases l with
  | nil => simp [splitDots]
  | cons c rest =>
    rw [splitDots]
    split
    · simp
    · split <;> simp

theorem slice_append (pre cur rest : Bytes) (s i : Nat) (hs : s = pre.length)
    (hi : i = pre.length + cur.length) :
    slice (pre ++ cur ++ rest) (s : Int) (i : Int) = some cur := by
  subst hs hi
  unfold slice
  rw [if_pos (by simp)]
  congr 1
  rw [Int.toNat_ofNat, Int.toNat_ofNat, List.append_assoc, List.drop_left]
  simp

theorem splitLoop_eq : ∀ (rest pre cur : Bytes) (labels : List Bytes),
    splitLoop (pre ++ cur ++ rest) (pre.length + cur.length) pre.length labels
      = some (labels ++ splitFrom cur rest) := by
  intro rest
  induction rest with
  | nil =>
    intro pre cur labels
    rw [splitLoop]
    have hlen : (pre ++ cur ++ ([] : Bytes)).length = pre.length + cur.length := by simp
    rw [if_pos (by omega), if_pos hlen.symm, slice_append pre cur [] _ _ rfl rfl]
    simp only [Option.some_bind]
    rw [splitLoop, if_neg (by omega)]
    simp [splitFrom, splitDots]
  | cons c rest ih =>
    intro pre cur labels
    rw [splitLoop]
    have hlen : (pre ++ cur ++ c :: rest).length = pre.length + cur.length + rest.length + 1 := by
      simp; omega
    rw [if_pos (by omega), if_neg (by omega)]
    have hget : (pre ++ cur ++ c :: rest).get? (pre.length + cur.length) = some c := by
      rw [List.get?_eq_getElem?, List.getElem?_append_right (by simp)]
      simp
    rw [hget]
    simp only [Option.some_bind]
    by_cases hc : c = 46
    · rw [if_pos hc, slice_append pre cur (c :: rest) _ _ rfl rfl]
      simp only [Option.some_bind]
      have h := ih (pre ++ cur ++ [c]) [] (labels ++ [cur])
      have e : pre ++ cur ++ [c] ++ [] ++ rest = pre ++ cur ++ c :: rest := by simp
      rw [e] at h
      have e2 : (pre ++ cur ++ [c]).length = pre.length + cur.length + 1 := by simp; omega
      rw [e2] at h
      simp only [List.length_nil, Nat.add_zero] at h
      rw [h]
      simp [splitFrom, splitDots, hc]
      cases hs : splitDots rest with
      | nil => exact absurd hs (splitDots_ne_nil rest)
      | cons l ls => simp
    · rw [if_neg hc]
      have h := ih pre (cur ++ [c]) labels
      have e : pre ++ (cur ++ [c]) ++ rest = pre ++ cur ++ c :: rest := by simp
      rw [e] at h
      have e2 : pre.length + (cur ++ [c]).length = pre.length + cur.length + 1 := by simp; omega
      rw [e2] at h
      rw [h]
      simp only [splitFrom, splitDots, if_neg hc]
      cases hs : splitDots rest with
      | nil => exact absurd hs (splitDots_ne_nil rest)
      | cons l ls => simp

theorem splitLabels_eq (line : Bytes) : splitLabels line = some (splitDots line) := by
  have h := splitLoop_eq line [] [] []
  simp only [List.nil_append, List.length_nil, Nat.add_zero] at h
  unfold splitLabels
  rw [h]
  simp only [splitFrom]
  cases hs : splitDots line with
  | nil => exact absurd hs (splitDots_ne_nil line)
  | cons l ls => simp

/-! ## The label reversal -/

theorem set_swap_ends (pre m post : List Bytes) (a b : Bytes) :
    ((pre ++ a :: (m ++ b :: post)).set pre.length b).set (pre.length + m.length + 1) a
      = pre ++ b :: (m ++ a :: post) := by
  rw [List.set_append_right _ _ (Nat.le_refl _), Nat.sub_self, List.set_cons_zero,
    List.set_append_right _ _ (by omega)]
  have e : pre.length + m.length + 1 - pre.length = m.length + 1 := by omega
  rw [e, List.set_cons_succ, List.set_append_right _ _ (Nat.le_refl _), Nat.sub_self,
    List.set_cons_zero]

theorem reverseLoop_eq : ∀ (n : Nat) (pre mid post : List Bytes), mid.length = n →
    reverseLoop (pre ++ mid ++ post) pre.length ((pre.length : Int) + (mid.length : Int) - 1)
      = some (pre ++ mid.reverse ++ post) := by
  intro n
  induction n using Nat.strong_induction_on with
  | _ n ih =>
    intro pre mid post hn
    rw [reverseLoop]
    by_cases hlt : ((pre.length : Nat) : Int) < (pre.length : Int) + (mid.length : Int) - 1
    · rw [if_pos hlt]
      have h2 : 2 ≤ mid.length := by omega
      obtain ⟨a, mid1, rfl⟩ : ∃ a mid1, mid = a :: mid1 := by
        cases mid with
        | nil => simp at h2
        | cons a t => exact ⟨a, t, rfl⟩
      have hne : mid1 ≠ [] := by
        intro h; subst h; simp at h2
      obtain ⟨m, b, rfl⟩ : ∃ m b, mid1 = m ++ [b] :=
        ⟨mid1.dropLast, mid1.getLast hne, (List.dropLast_append_getLast hne).symm⟩
      have hj : ((pre.length : Int) + ((a :: (m ++ [b])).length : Int) - 1).toNat
          = pre.length + m.length + 1 := by
        simp; omega
      have hshape : pre ++ a :: (m ++ [b]) ++ post = pre ++ a :: (m ++ b :: post) := by simp
      rw [hj, hshape]
      have hi : (pre ++ a :: (m ++ b :: post))[pre.length]? = some a := by
        rw [List.getElem?_append_right (Nat.le_refl _)]; simp
      have hjj : (pre ++ a :: (m ++ b :: post))[pre.length + m.length + 1]? = some b := by
        rw [List.getElem?_append_right (by omega)]
        have e : pre.length + m.length + 1 - pre.length = m.length + 1 := by omega
        rw [e, List.getElem?_cons_succ, List.getElem?_append_right (Nat.le_refl _)]
        simp
      rw [hi, hjj]
      simp only
      rw [set_swap_ends]
      have h := ih m.length (by rw [← hn]; simp; omega) (pre ++ [b]) m (a :: post) rfl
      have e1 : pre ++ [b] ++ m ++ a :: post = pre ++ b :: (m ++ a :: post) := by simp
      have e2 : ((pre ++ [b]).length : Int) + (m.length : Int) - 1
          = (pre.length : Int) + ((a :: (m ++ [b])).length : Int) - 1 - 1 := by
        simp; omega
      have e3 : (pre ++ [b]).length = pre.length + 1 := by simp
      rw [e1, e2, e3] at h
      rw [h]
      simp
    · rw [if_neg hlt]
      have h1 : mid.length ≤ 1 := by omega
      have hrev : mid.reverse = mid := by
        cases mid with
        | nil => rfl
        | cons a t =>
          cases t with
          | nil => rfl
          | cons b t2 => simp at h1
      rw [hrev]

theorem reverseLabels_eq (labels : List Bytes) : reverseLabels labels = some labels.reverse := by
  have h := reverseLoop_eq labels.length [] labels [] rfl
  simp only [List.nil_append, List.append_nil, List.length_nil, Nat.cast_zero, Int.zero_add] at h
  unfold reverseLabels
  simpa using h

/-! ## joinLabels and labelsToDomain -/

theorem copyAt_eq (done zeros l : Bytes) (h : l.length ≤ zeros.length) :
    copyAt (done ++ zeros) done.length l = some (done ++ l ++ zeros.drop l.length) := by
  unfold copyAt
  rw [if_pos (by simp)]
  congr 1
  have e1 : (done ++ zeros).length - done.length = zeros.length := by simp
  rw [e1, Nat.min_eq_left h, List.take_left, List.take_of_length_le h,
    List.drop_append_eq_append_drop]
  have e2 : done.length + l.length - done.length = l.length := by omega
  rw [List.drop_of_length_le (by omega), e2]
  simp

theorem joinLoop_eq (n : Nat) : ∀ (rest : List Bytes) (i : Nat) (done zeros : Bytes),
    i + rest.length = n → rest ≠ [] → zeros.length = (joinDots rest).length →
    joinLoop n rest i (done ++ zeros) done.length = some (done ++ joinDots rest) := by
  intro rest
  induction rest with
  | nil => intro i done zeros _ h; exact absurd rfl h
  | cons l r ih =>
    intro i done zeros hn _ hz
    cases r with
    | nil =>
      simp only [joinDots] at hz
      rw [joinLoop, copyAt_eq done zeros l (by omega)]
      simp only
      have hi : ¬ ((i : Int) < (n : Int) - 1) := by simp at hn; omega
      rw [if_neg hi, joinLoop, List.drop_of_length_le (by omega)]
      simp [joinDots]
    | cons l2 r2 =>
      simp only [joinDots, List.length_append, List.length_cons] at hz
      rw [joinLoop, copyAt_eq done zeros l (by omega)]
      simp only
      have hi : (i : Int) < (n : Int) - 1 := by simp at hn; omega
      have hlen : done.length + l.length < (done ++ l ++ zeros.drop l.length).length := by
        simp; omega
      rw [if_pos hi, if_pos hlen]
      have hset : (done ++ l ++ zeros.drop l.length).set (done.length + l.length) 46
          = (done ++ l ++ [46]) ++ zeros.drop (l.length + 1) := by
        have hlt : l.length < zeros.length := by omega
        have hd : zeros.drop l.length = zeros[l.length] :: zeros.drop (l.length + 1) :=
          List.drop_eq_getElem_cons hlt
        have e0 : done.length + l.length - (done ++ l).length = 0 := by simp
        rw [hd, List.set_append_right _ _ (by simp), e0, List.set_cons_zero]
        simp
      rw [hset]
      have h := ih (i + 1) (done ++ l ++ [46]) (zeros.drop (l.length + 1))
        (by simp at hn ⊢; omega) (by simp) (by simp; omega)
      have e : (done ++ l ++ [46]).length = done.length + l.length + 1 := by simp; omega
      rw [e] at h
      rw [h]
      simp [joinDots]

theorem foldl_len_shift (ls : List Bytes) : ∀ (a : Int),
    ls.foldl (fun acc label => acc + ((label.length : Int) + 1)) a
      = a + ls.foldl (fun acc label => acc + ((label.length : Int) + 1)) 0 := by
  induction ls with
  | nil => intro a; simp
  | cons l r ih =>
    intro a
    rw [List.foldl_cons, List.foldl_cons, ih (a + _), ih (0 + _)]
    omega

theorem joinTotalLen_eq (ls : List Bytes) (h : ls ≠ []) :
    joinTotalLen ls = ((joinDots ls).length : Int) := by
  unfold joinTotalLen
  induction ls with
  | nil => exact absurd rfl h
  | cons l r ih =>
    cases r with
    | nil => simp [joinDots]
    | cons l2 r2 =>
      have h2 := ih (by simp)
      rw [List.foldl_cons, foldl_len_shift]
      simp only [joinDots, List.length_append, List.length_cons]
      push_cast
      omega

theorem joinLabels_nil : joinLabels [] = none := by
  simp [joinLabels, joinTotalLen]

theorem joinLabels_eq (ls : List Bytes) (h : ls ≠ []) : joinLabels ls = some (joinDots ls) := by
  unfold joinLabels
  simp only
  rw [joinTotalLen_eq ls h, if_neg (by omega), Int.toNat_ofNat]
  have := joinLoop_eq ls.length ls 0 [] (List.replicate (joinDots ls).length 0)
    (by simp) h (by simp)
  simpa using this

theorem domainPartsFrom_eq (labels : List Bytes) : ∀ (k i : Nat), i + k = labels.length →
    domainPartsFrom labels k i = some (labels.reverse.drop i) := by
  intro k
  induction k with
  | zero =>
    intro i h
    rw [domainPartsFrom, List.drop_of_length_le (by simp; omega)]
  | succ k ih =>
    intro i h
    rw [domainPartsFrom]
    have hi : i < labels.reverse.length := by simp; omega
    have hget : labels.get? (labels.length - 1 - i) = some (labels.reverse[i]) := by
      rw [List.get?_eq_getElem?, List.getElem_reverse, List.getElem?_eq_getElem]
    rw [hget]
    simp only
    rw [ih (i + 1) (by omega), Option.map_some']
    congr 1
    exact (List.drop_eq_getElem_cons hi).symm

theorem labelsToDomain_nil : labelsToDomain [] = none := by
  simp [labelsToDomain, domainPartsFrom, joinLabels_nil]

theorem labelsToDomain_eq (labels : List Bytes) (h : labels ≠ []) :
    labelsToDomain labels = some (joinDots labels.reverse) := by
  unfold labelsToDomain
  rw [domainPartsFrom_eq labels labels.length 0 (by simp)]
  simp only [List.drop_zero, Option.some_bind]
  exact joinLabels_eq _ (by simpa using h)

/-! ## processLine -/

theorem rdropWhile_eq_nil_iff {α : Type} (p : α → Bool) (l : List α) :
    l.rdropWhile p = [] ↔ ∀ x ∈ l, p x = true := by
  unfold List.rdropWhile
  rw [List.reverse_eq_nil_iff, List.dropWhile_eq_nil_iff]
  simp

theorem trimSpec_eq_nil_iff (line : Bytes) : trimSpec line = [] ↔ isBlank line = true := by
  unfold trimSpec isBlank
  rw [rdropWhile_eq_nil_iff, List.all_eq_true]
  constructor
  · intro h
    have hnil : line.dropWhile isSpaceByte = [] := by
      by_contra hne
      have hhead := List.head_dropWhile_not isSpaceByte line hne
      have := h _ (List.head_mem hne)
      rw [this] at hhead
      exact Bool.noConfusion hhead
    exact List.dropWhile_eq_nil_iff.mp hnil
  · intro h x hx
    exact h x ((List.dropWhile_suffix isSpaceByte).subset hx)

theorem processLine_eq (line : Bytes) (root : TrieNode) :
    processLine line root
      = some (if isBlank line = true then root else insertLoop (labelPath line) root) := by
  unfold processLine
  rw [trimSpaces_eq]
  simp only
  by_cases hb : isBlank line = true
  · have h0 : (trimSpec line).length = 0 := by
      rw [(trimSpec_eq_nil_iff line).mpr hb]; rfl
    rw [if_pos h0, if_pos hb]
  · have h0 : ¬ (trimSpec line).length = 0 := by
      intro h
      exact hb ((trimSpec_eq_nil_iff line).mp (List.length_eq_zero.mp h))
    rw [if_neg h0, if_neg hb, splitLabels_eq]
    simp only
    rw [reverseLabels_eq]
    rfl

/-- The trie after one line, in closed form. -/
theorem processLines_cons (line : Bytes) (rest : List Bytes) (root : TrieNode) :
    processLines (line :: rest) root
      = processLines rest
          (if isBlank line = true then root else insertLoop (labelPath line) root) := by
  rw [processLines, processLine_eq]
  rfl

theorem processLines_total : ∀ (lines : List Bytes) (root : TrieNode),
    ∃ t, processLines lines root = some t := by
  intro lines
  induction lines with
  | nil => intro root; exact ⟨root, rfl⟩
  | cons line rest ih =>
    intro root
    rw [processLines_cons]
    exact ih _

/-! ## The insertion loop -/

theorem lookupChild_setChild (children : List (Bytes × TrieNode)) (k l : Bytes) (v : TrieNode) :
    lookupChild (setChild children k v) l
      = if l = k then some v else lookupChild children l := by
  induction children with
  | nil =>
    simp only [setChild, lookupChild]
    by_cases h : l = k
    · rw [if_pos h.symm, if_pos h]
    · rw [if_neg (fun e => h e.symm), if_neg h]
  | cons kv rest ih =>
    obtain ⟨k1, c1⟩ := kv
    simp only [setChild]
    by_cases hk : k1 = k
    · rw [if_pos hk]
      simp only [lookupChild]
      by_cases h : l = k
      · rw [if_pos h.symm, if_pos h]
      · rw [if_neg (fun e => h e.symm), if_neg h, if_neg (fun e => h (hk ▸ e.symm))]
    · rw [if_neg hk]
      simp only [lookupChild]
      by_cases h1 : k1 = l
      · subst h1
        simp [hk]
      · simp [h1, ih]

theorem findNode_fresh (p : List Bytes) (c : Int) (hp : p ≠ []) :
    findNode (.mk c []) p = none := by
  cases p with
  | nil => exact absurd rfl hp
  | cons l r => simp [findNode, lookupChild]

/-- The node at `p` after the insertion of the path `r`: below the node that was there (or
a fresh one) the rest of `r` is inserted, and its Count is one higher when `p` is a
non-empty prefix of `r`. -/
theorem countAt_insertLoop : ∀ (r : List Bytes) (t : TrieNode) (p : List Bytes),
    countAt (insertLoop r t) p = countAt t p + (if p ≠ [] ∧ p <+: r then 1 else 0) := by
  intro r
  induction r with
  | nil =>
    intro t p
    simp only [insertLoop]
    have : ¬ (p ≠ [] ∧ p <+: ([] : List Bytes)) := by
      rintro ⟨h1, h2⟩
      exact h1 (List.prefix_nil.mp h2)
    rw [if_neg this]; simp
  | cons label rest ih =>
    intro t p
    obtain ⟨count, children⟩ := t
    cases hch : (lookupChild children label).getD (.mk 0 []) with
    | mk c ch =>
      have hins : insertLoop (label :: rest) (.mk count children)
          = .mk count (setChild children label (insertLoop rest (.mk (c + 1) ch))) := by
        simp only [insertLoop, hch]
      rw [hins]
      cases p with
      | nil => simp [countAt, findNode, TrieNode.Count]
      | cons l p1 =>
        by_cases hl : l = label
        · subst hl
          have hnew : countAt (.mk count (setChild children l (insertLoop rest (.mk (c + 1) ch))))
              (l :: p1) = countAt (insertLoop rest (.mk (c + 1) ch)) p1 := by
            simp only [countAt, findNode, lookupChild_setChild, if_true]
          have hold : countAt (.mk count children) (l :: p1) = countAt (.mk c ch) p1 := by
            simp only [countAt, findNode]
            cases hlk : lookupChild children l with
            | none =>
              rw [hlk] at hch
              simp only [Option.getD_none] at hch
              injection hch with h1 h2
              subst h1 h2
              cases p1 with
              | nil => simp [findNode, TrieNode.Count]
              | cons a b => simp [findNode, lookupChild]
            | some child =>
              rw [hlk] at hch
              simp only [Option.getD_some] at hch
              rw [hch]
          rw [hnew, hold, ih]
          have hbump : countAt (.mk (c + 1) ch) p1
              = countAt (.mk c ch) p1 + (if p1 = [] then 1 else 0) := by
            cases p1 with
            | nil => simp [countAt, findNode, TrieNode.Count]
            | cons a b => simp [countAt, findNode]
          rw [hbump]
          have hpre : (l :: p1 <+: l :: rest) ↔ p1 <+: rest := by
            rw [List.cons_prefix_cons]; simp
          by_cases hp1 : p1 = []
          · subst hp1
            simp
          · simp [hp1, hpre]
        · have hnew : countAt (.mk count (setChild children label (insertLoop rest (.mk (c + 1) ch))))
              (l :: p1) = countAt (.mk count children) (l :: p1) := by
            simp only [countAt, findNode, lookupChild_setChild, if_neg hl]
          rw [hnew]
          have : ¬ (l :: p1 ≠ [] ∧ l :: p1 <+: label :: rest) := by
            rintro ⟨_, h2⟩
            rw [List.cons_prefix_cons] at h2
            exact hl h2.1
          rw [if_neg this]; simp

/-- The nodes after the insertion of the path `r`: those that were there and those on `r`. -/
theorem present_insertLoop : ∀ (r : List Bytes) (t : TrieNode) (p : List Bytes),
    present (insertLoop r t) p = (present t p || decide (p <+: r)) := by
  intro r
  induction r with
  | nil =>
    intro t p
    simp only [insertLoop]
    cases p with
    | nil => simp [present, findNode]
    | cons a b => simp
  | cons label rest ih =>
    intro t p
    obtain ⟨count, children⟩ := t
    cases hch : (lookupChild children label).getD (.mk 0 []) with
    | mk c ch =>
      have hins : insertLoop (label :: rest) (.mk count children)
          = .mk count (setChild children label (insertLoop rest (.mk (c + 1) ch))) := by
        simp only [insertLoop, hch]
      rw [hins]
      cases p with
      | nil => simp [present, findNode]
      | cons l p1 =>
        by_cases hl : l = label
        · subst hl
          have hnew : present (.mk count (setChild children l (insertLoop rest (.mk (c + 1) ch))))
              (l :: p1) = present (insertLoop rest (.mk (c + 1) ch)) p1 := by
            simp only [present, findNode, lookupChild_setChild, if_true]
          rw [hnew, ih]
          have hbump : present (.mk (c + 1) ch) p1 = present (.mk c ch) p1 := by
            cases p1 with
            | nil => simp [present, findNode]
            | cons a b => simp [present, findNode]
          rw [hbump]
          have hpre : (l :: p1 <+: l :: rest) ↔ p1 <+: rest := by
            rw [List.cons_prefix_cons]; simp
          simp only [hpre]
          cases hlk : lookupChild children l with
          | none =>
            rw [hlk] at hch
            simp only [Option.getD_none] at hch
            injection hch with h1 h2
            subst h1 h2
            cases p1 with
            | nil => simp [present, findNode, hlk]
            | cons a b => simp [present, findNode, hlk, lookupChild]
          | some child =>
            rw [hlk] at hch
            simp only [Option.getD_some] at hch
            simp [present, findNode, hlk, hch]
        · have hnew : present (.mk count (setChild children label (insertLoop rest (.mk (c + 1) ch))))
              (l :: p1) = present (.mk count children) (l :: p1) := by
            simp only [present, findNode, lookupChild_setChild, if_neg hl]
          rw [hnew]
          have : ¬ (l :: p1 <+: label :: rest) := by
            intro h2
            rw [List.cons_prefix_cons] at h2
            exact hl h2.1
          simp [this]

/-! ## The trie of a list of lines -/

theorem countAt_processLines : ∀ (lines : List Bytes) (root t : TrieNode),
    processLines lines root = some t →
    ∀ p, p ≠ [] → countAt t p = countAt root p + (linesThrough lines p : Int) := by
  intro lines
  induction lines with
  | nil =>
    intro root t h p _
    simp only [processLines, Option.some.injEq] at h
    subst h
    simp [linesThrough]
  | cons line rest ih =>
    intro root t h p hp
    rw [processLines_cons] at h
    rw [ih _ t h p hp]
    simp only [linesThrough, List.countP_cons, beginsWith]
    by_cases hb : isBlank line = true
    · simp [hb]
    · have hb2 : isBlank line = false := by simpa using hb
      rw [if_neg hb, countAt_insertLoop]
      by_cases hpre : p <+: labelPath line
      · simp [hb2, hpre, hp]; omega
      · simp [hb2, hpre]

theorem countAt_root_processLines : ∀ (lines : List Bytes) (root t : TrieNode),
    processLines lines root = some t → countAt t [] = countAt root [] := by
  intro lines
  induction lines with
  | nil =>
    intro root t h
    simp only [processLines, Option.some.injEq] at h
    subst h; rfl
  | cons line rest ih =>
    intro root t h
    rw [processLines_cons] at h
    rw [ih _ t h]
    by_cases hb : isBlank line = true
    · simp [hb]
    · rw [if_neg hb, countAt_insertLoop]; simp

theorem present_processLines : ∀ (lines : List Bytes) (root t : TrieNode),
    processLines lines root = some t →
    ∀ p, present t p = (present root p || lines.any (beginsWith p)) := by
  intro lines
  induction lines with
  | nil =>
    intro root t h p
    simp only [processLines, Option.some.injEq] at h
    subst h
    simp
  | cons line rest ih =>
    intro root t h p
    rw [processLines_cons] at h
    rw [ih _ t h p]
    simp only [List.any_cons, beginsWith]
    by_cases hb : isBlank line = true
    · simp [hb]
    · have hb2 : isBlank line = false := by simpa using hb
      rw [if_neg hb, present_insertLoop]
      simp [hb2, Bool.or_assoc]

theorem countAt_emptyRoot (p : List Bytes) : countAt emptyRoot p = 0 := by
  cases p with
  | nil => rfl
  | cons a b => rfl

theorem present_emptyRoot (p : List Bytes) (hp : p ≠ []) : present emptyRoot p = false := by
  cases p with
  | nil => exact absurd rfl hp
  | cons a b => rfl

/-! ## traverseTrie -/

theorem report_cons_child (labels : List Bytes) (label : Bytes) (threshold : Int)
    (ns : List (List Bytes × Int)) :
    report labels threshold (ns.map (fun pc => (label :: pc.1, pc.2)))
      = report (labels ++ [label]) threshold ns := by
  simp only [report, List.append_assoc, List.singleton_append]
  induction ns with
  | nil => rfl
  | cons pc rest ih =>
    simp only [List.map_cons, List.filter_cons]
    split
    · simp only [List.map_cons, List.cons.injEq, true_and]
      exact ih
    · exact ih

theorem report_append (labels : List Bytes) (threshold : Int)
    (a b : List (List Bytes × Int)) :
    report labels threshold (a ++ b) = report labels threshold a ++ report labels threshold b := by
  simp [report]

mutual
theorem traverseTrie_eq : ∀ (t : TrieNode) (labels : List Bytes) (threshold : Int)
    (w : List Bytes),
    traverseTrie t labels threshold w = some (w ++ report labels threshold (nodes t))
  | .mk count children, labels, threshold, w => by
    rw [traverseTrie]
    have hrep : report labels threshold (nodes (.mk count children))
        = (if count ≥ threshold ∧ labels.length > 0 then [emitted labels] else [])
          ++ report labels threshold (childNodes children) := by
      rw [nodes]
      simp only [report, List.filter_cons, List.append_nil]
      by_cases hc : count ≥ threshold ∧ labels.length > 0
      · have hne : labels ≠ [] := List.length_pos.mp hc.2
        simp [hc.1, hne, hc.2]
      · rw [if_neg hc]
        have : (decide (count ≥ threshold) && decide (labels ≠ [])) = false := by
          by_cases h1 : count ≥ threshold
          · have : ¬ labels.length > 0 := fun h => hc ⟨h1, h⟩
            have hnil : labels = [] := by
              cases labels with
              | nil => rfl
              | cons a b => simp at this
            simp [hnil]
          · simp [h1]
        rw [this]
        simp
    rw [hrep]
    by_cases hc : count ≥ threshold ∧ labels.length > 0
    · rw [if_pos hc, if_pos hc]
      have hne : labels ≠ [] := List.length_pos.mp hc.2
      rw [labelsToDomain_eq labels hne]
      simp only
      rw [traverseChildren_eq children labels threshold]
      simp [emitted]
    · rw [if_neg hc, if_neg hc]
      rw [traverseChildren_eq children labels threshold]
      simp
theorem traverseChildren_eq : ∀ (cs : List (Bytes × TrieNode)) (labels : List Bytes)
    (threshold : Int) (w : List Bytes),
    traverseChildren cs labels threshold w
      = some (w ++ report labels threshold (childNodes cs))
  | [], labels, threshold, w => by
    rw [traverseChildren, childNodes]
    simp [report]
  | (label, child) :: rest, labels, threshold, w => by
    rw [traverseChildren, traverseTrie_eq child (labels ++ [label]) threshold w]
    simp only
    rw [traverseChildren_eq rest labels threshold, childNodes, report_append,
      report_cons_child]
    simp
end

/-! ## The nodes of a trie -/

theorem uniqueKeys_inv {count : Int} {children : List (Bytes × TrieNode)}
    (h : UniqueKeys (.mk count children)) :
    (children.map Prod.fst).Nodup ∧ ∀ kv ∈ children, UniqueKeys kv.2 := by
  cases h with
  | mk _ _ h1 h2 => exact ⟨h1, h2⟩

theorem uniqueKeys_emptyRoot : UniqueKeys emptyRoot :=
  UniqueKeys.mk 0 [] (by simp) (by simp)

theorem lookupChild_mem {children : List (Bytes × TrieNode)} {l : Bytes} {ch : TrieNode}
    (h : lookupChild children l = some ch) : (l, ch) ∈ children := by
  induction children with
  | nil => simp [lookupChild] at h
  | cons kv rest ih =>
    obtain ⟨k, v⟩ := kv
    simp only [lookupChild] at h
    by_cases hk : k = l
    · rw [if_pos hk] at h
      injection h with h
      subst hk h
      exact List.mem_cons_self _ _
    · rw [if_neg hk] at h
      exact List.mem_cons_of_mem _ (ih h)

theorem lookupChild_of_mem {children : List (Bytes × TrieNode)} {l : Bytes} {ch : TrieNode}
    (hn : (children.map Prod.fst).Nodup) (h : (l, ch) ∈ children) :
    lookupChild children l = some ch := by
  induction children with
  | nil => simp at h
  | cons kv rest ih =>
    obtain ⟨k, v⟩ := kv
    simp only [List.map_cons, List.nodup_cons] at hn
    simp only [lookupChild]
    rcases List.mem_cons.mp h with h1 | h1
    · injection h1 with h1 h2
      subst h1 h2
      rw [if_pos rfl]
    · have hk : k ≠ l := by
        intro e
        subst e
        exact hn.1 (List.mem_map.mpr ⟨(k, ch), h1, rfl⟩)
      rw [if_neg hk]
      exact ih hn.2 h1

theorem keys_setChild (children : List (Bytes × TrieNode)) (k : Bytes) (v : TrieNode) :
    (setChild children k v).map Prod.fst
      = if k ∈ children.map Prod.fst then children.map Prod.fst
        else children.map Prod.fst ++ [k] := by
  induction children with
  | nil => simp [setChild]
  | cons kv rest ih =>
    obtain ⟨k1, c1⟩ := kv
    simp only [setChild]
    by_cases hk : k1 = k
    · subst hk
      simp
    · rw [if_neg hk]
      simp only [List.map_cons, ih, List.mem_cons]
      have hk2 : ¬ k = k1 := fun e => hk e.symm
      by_cases hm : k ∈ rest.map Prod.fst
      · simp [hm]
      · simp [hm, hk2]

theorem mem_setChild {children : List (Bytes × TrieNode)} {k : Bytes} {v : TrieNode}
    {kv : Bytes × TrieNode} (h : kv ∈ setChild children k v) : kv ∈ children ∨ kv = (k, v) := by
  induction children with
  | nil =>
    simp only [setChild, List.mem_singleton] at h
    exact Or.inr h
  | cons kv1 rest ih =>
    obtain ⟨k1, c1⟩ := kv1
    simp only [setChild] at h
    by_cases hk : k1 = k
    · rw [if_pos hk] at h
      rcases List.mem_cons.mp h with h1 | h1
      · exact Or.inr h1
      · exact Or.inl (List.mem_cons_of_mem _ h1)
    · rw [if_neg hk] at h
      rcases List.mem_cons.mp h with h1 | h1
      · exact Or.inl (h1 ▸ List.mem_cons_self _ _)
      · rcases ih h1 with h2 | h2
        · exact Or.inl (List.mem_cons_of_mem _ h2)
        · exact Or.inr h2

theorem uniqueKeys_insertLoop : ∀ (r : List Bytes) (t : TrieNode),
    UniqueKeys t → UniqueKeys (insertLoop r t) := by
  intro r
  induction r with
  | nil => intro t h; exact h
  | cons label rest ih =>
    intro t h
    obtain ⟨count, children⟩ := t
    obtain ⟨hkeys, hch⟩ := uniqueKeys_inv h
    cases hget : (lookupChild children label).getD (.mk 0 []) with
    | mk c ch =>
      have hins : insertLoop (label :: rest) (.mk count children)
          = .mk count (setChild children label (insertLoop rest (.mk (c + 1) ch))) := by
        simp only [insertLoop, hget]
      rw [hins]
      have hchild : UniqueKeys (.mk c ch) := by
        cases hlk : lookupChild children label with
        | none =>
          rw [hlk] at hget
          simp only [Option.getD_none] at hget
          rw [← hget]
          exact UniqueKeys.mk 0 [] (by simp) (by simp)
        | some child =>
          rw [hlk] at hget
          simp only [Option.getD_some] at hget
          rw [← hget]
          exact hch _ (lookupChild_mem hlk)
      have hbump : UniqueKeys (.mk (c + 1) ch) := by
        obtain ⟨h1, h2⟩ := uniqueKeys_inv hchild
        exact UniqueKeys.mk _ _ h1 h2
      refine UniqueKeys.mk _ _ ?_ ?_
      · rw [keys_setChild]
        split
        · exact hkeys
        · rename_i hm
          exact List.Nodup.append hkeys (by simp) (by simpa using hm)
      · intro kv hkv
        rcases mem_setChild hkv with h1 | h1
        · exact hch kv h1
        · rw [h1]
          exact ih _ hbump

theorem uniqueKeys_processLines : ∀ (lines : List Bytes) (root t : TrieNode),
    UniqueKeys root → processLines lines root = some t → UniqueKeys t := by
  intro lines
  induction lines with
  | nil =>
    intro root t h ht
    simp only [processLines, Option.some.injEq] at ht
    exact ht ▸ h
  | cons line rest ih =>
    intro root t h ht
    rw [processLines_cons] at ht
    refine ih _ t ?_ ht
    split
    · exact h
    · exact uniqueKeys_insertLoop _ _ h

theorem mem_childNodes : ∀ (cs : List (Bytes × TrieNode)) (x : List Bytes × Int),
    x ∈ childNodes cs ↔ ∃ kv ∈ cs, ∃ pc ∈ nodes kv.2, x = (kv.1 :: pc.1, pc.2) := by
  intro cs
  induction cs with
  | nil => intro x; simp [childNodes]
  | cons kv rest ih =>
    intro x
    obtain ⟨label, child⟩ := kv
    rw [childNodes, List.mem_append, ih]
    constructor
    · rintro (h | ⟨kv, hkv, pc, hpc, hx⟩)
      · obtain ⟨pc, hpc, hx⟩ := List.mem_map.mp h
        exact ⟨(label, child), List.mem_cons_self _ _, pc, hpc, hx.symm⟩
      · exact ⟨kv, List.mem_cons_of_mem _ hkv, pc, hpc, hx⟩
    · rintro ⟨kv, hkv, pc, hpc, hx⟩
      rcases List.mem_cons.mp hkv with h1 | h1
      · subst h1
        exact Or.inl (List.mem_map.mpr ⟨pc, hpc, hx.symm⟩)
      · exact Or.inr ⟨kv, h1, pc, hpc, hx⟩

theorem mem_nodes_mk (count : Int) (cs : List (Bytes × TrieNode)) (x : List Bytes × Int) :
    x ∈ nodes (.mk count cs) ↔ x = ([], count) ∨ x ∈ childNodes cs := by
  rw [nodes, List.mem_cons]

/-- In a trie with unique keys the listed nodes are the nodes that the label paths reach. -/
theorem mem_nodes_iff : ∀ (p : List Bytes) (t : TrieNode) (c : Int), UniqueKeys t →
    ((p, c) ∈ nodes t ↔ ∃ n, findNode t p = some n ∧ n.Count = c) := by
  intro p
  induction p with
  | nil =>
    intro t c _
    obtain ⟨count, cs⟩ := t
    rw [mem_nodes_mk, mem_childNodes]
    simp only [findNode, Option.some.injEq, exists_eq_left', TrieNode.Count]
    constructor
    · rintro (h | ⟨kv, _, pc, _, hx⟩)
      · injection h with _ h2
        exact h2.symm
      · injection hx with h1 _
        exact absurd h1 (by simp)
    · intro h
      exact Or.inl (by rw [h])
  | cons l p1 ih =>
    intro t c ht
    obtain ⟨count, cs⟩ := t
    obtain ⟨hkeys, hch⟩ := uniqueKeys_inv ht
    rw [mem_nodes_mk, mem_childNodes]
    constructor
    · rintro (h | ⟨kv, hkv, pc, hpc, hx⟩)
      · injection h with h1 _
        exact absurd h1 (by simp)
      · obtain ⟨k, ch⟩ := kv
        obtain ⟨q, c1⟩ := pc
        simp only [Prod.mk.injEq, List.cons.injEq] at hx
        obtain ⟨⟨hl, hq⟩, hc⟩ := hx
        subst hl hq hc
        obtain ⟨n, hn, hcount⟩ := (ih ch c (hch _ hkv)).mp hpc
        refine ⟨n, ?_, hcount⟩
        simp only [findNode, lookupChild_of_mem hkeys hkv]
        exact hn
    · rintro ⟨n, hn, hcount⟩
      simp only [findNode] at hn
      cases hlk : lookupChild cs l with
      | none => rw [hlk] at hn; simp at hn
      | some ch =>
        rw [hlk] at hn
        simp only at hn
        have hmem := lookupChild_mem hlk
        refine Or.inr ⟨(l, ch), hmem, (p1, c), ?_, rfl⟩
        exact (ih ch c (hch _ hmem)).mpr ⟨n, hn, hcount⟩

mutual
theorem nodup_nodes : ∀ (t : TrieNode), UniqueKeys t → ((nodes t).map Prod.fst).Nodup
  | .mk count cs, h => by
    obtain ⟨hkeys, hch⟩ := uniqueKeys_inv h
    rw [nodes, List.map_cons, List.nodup_cons]
    refine ⟨?_, nodup_childNodes cs hkeys hch⟩
    intro hmem
    obtain ⟨x, hx, hx1⟩ := List.mem_map.mp hmem
    obtain ⟨kv, _, pc, _, hxe⟩ := (mem_childNodes cs x).mp hx
    rw [hxe] at hx1
    exact absurd hx1 (by simp)
theorem nodup_childNodes : ∀ (cs : List (Bytes × TrieNode)),
    (cs.map Prod.fst).Nodup → (∀ kv ∈ cs, UniqueKeys kv.2) →
    ((childNodes cs).map Prod.fst).Nodup
  | [], _, _ => by simp [childNodes]
  | (label, child) :: rest, hkeys, hch => by
    simp only [List.map_cons, List.nodup_cons] at hkeys
    rw [childNodes, List.map_append]
    refine List.Nodup.append ?_ ?_ ?_
    · rw [List.map_map]
      have hinj : Function.Injective (fun q : List Bytes => label :: q) := by
        intro a b hab
        exact List.tail_eq_of_cons_eq hab
      have hn := nodup_nodes child (hch _ (List.mem_cons_self _ _))
      have := List.Nodup.map hinj hn
      rw [List.map_map] at this
      exact this
    · exact nodup_childNodes rest hkeys.2 (fun kv hkv => hch kv (List.mem_cons_of_mem _ hkv))
    · intro q hq1 hq2
      obtain ⟨x, hx, hxq⟩ := List.mem_map.mp hq1
      obtain ⟨pc, _, hpc⟩ := List.mem_map.mp hx
      obtain ⟨y, hy, hyq⟩ := List.mem_map.mp hq2
      obtain ⟨kv, hkv, pc2, _, hye⟩ := (mem_childNodes rest y).mp hy
      rw [← hpc] at hxq
      rw [hye] at hyq
      simp only at hxq hyq
      rw [← hxq] at hyq
      injection hyq with h1 _
      exact hkeys.1 (List.mem_map.mpr ⟨kv, hkv, h1⟩)
end

/-! ## Splitting and joining -/

theorem splitFrom_nil (rest : Bytes) : splitFrom [] rest = splitDots rest := by
  unfold splitFrom
  cases hs : splitDots rest with
  | nil => exact absurd hs (splitDots_ne_nil rest)
  | cons h t => simp

theorem splitDots_append_dotfree : ∀ (l rest : Bytes), 46 ∉ l →
    splitDots (l ++ rest) = splitFrom l rest := by
  intro l
  induction l with
  | nil => intro rest _; rw [splitFrom_nil]; rfl
  | cons c l ih =>
    intro rest h
    have hc : ¬ c = 46 := fun e => h (e ▸ List.mem_cons_self _ _)
    have hl : 46 ∉ l := fun e => h (List.mem_cons_of_mem _ e)
    rw [List.cons_append, splitDots, if_neg hc, ih rest hl]
    unfold splitFrom
    cases hs : splitDots rest with
    | nil => exact absurd hs (splitDots_ne_nil rest)
    | cons h t => simp

theorem splitDots_dotfree (l : Bytes) (h : 46 ∉ l) : splitDots l = [l] := by
  have := splitDots_append_dotfree l [] h
  simpa [splitFrom, splitDots] using this

theorem splitDots_joinDots : ∀ (ls : List Bytes), ls ≠ [] → (∀ l ∈ ls, 46 ∉ l) →
    splitDots (joinDots ls) = ls := by
  intro ls
  induction ls with
  | nil => intro h; exact absurd rfl h
  | cons l r ih =>
    intro _ hdot
    have hl : 46 ∉ l := hdot l (List.mem_cons_self _ _)
    cases r with
    | nil => rw [joinDots]; exact splitDots_dotfree l hl
    | cons l2 r2 =>
      rw [joinDots, splitDots_append_dotfree l _ hl]
      unfold splitFrom
      rw [splitDots, if_pos rfl, ih (by simp) (fun x hx => hdot x (List.mem_cons_of_mem _ hx))]
      simp

theorem joinDots_cons_cons (c : Nat) (h : Bytes) (t : List Bytes) :
    joinDots ((c :: h) :: t) = c :: joinDots (h :: t) := by
  cases t with
  | nil => simp [joinDots]
  | cons a b => simp [joinDots]

theorem joinDots_splitDots : ∀ (l : Bytes), joinDots (splitDots l) = l := by
  intro l
  induction l with
  | nil => simp [splitDots, joinDots]
  | cons c rest ih =>
    rw [splitDots]
    cases hs : splitDots rest with
    | nil => exact absurd hs (splitDots_ne_nil rest)
    | cons h t =>
      rw [hs] at ih
      by_cases hc : c = 46
      · rw [if_pos hc, joinDots, ih, hc]
        simp
      · rw [if_neg hc]
        simp only
        rw [joinDots_cons_cons, ih]

theorem splitDots_labels_dotfree : ∀ (l : Bytes), ∀ x ∈ splitDots l, 46 ∉ x := by
  intro l
  induction l with
  | nil => intro x hx; simp [splitDots] at hx; subst hx; simp
  | cons c rest ih =>
    intro x hx
    rw [splitDots] at hx
    cases hs : splitDots rest with
    | nil => exact absurd hs (splitDots_ne_nil rest)
    | cons h t =>
      rw [hs] at hx ih
      by_cases hc : c = 46
      · rw [if_pos hc] at hx
        rcases List.mem_cons.mp hx with h1 | h1
        · subst h1; simp
        · exact ih x h1
      · rw [if_neg hc] at hx
        simp only at hx
        rcases List.mem_cons.mp hx with h1 | h1
        · subst h1
          intro hm
          rcases List.mem_cons.mp hm with h2 | h2
          · exact hc h2.symm
          · exact ih h (List.mem_cons_self _ _) h2
        · exact ih x (List.mem_cons_of_mem _ h1)

/-- Two non-empty label paths without a `'.'` in any label that write the same line are
the same path. -/
theorem emitted_injective (p q : List Bytes) (hp : p ≠ []) (hq : q ≠ [])
    (hpd : ∀ l ∈ p, 46 ∉ l) (hqd : ∀ l ∈ q, 46 ∉ l) (h : emitted p = emitted q) : p = q := by
  unfold emitted at h
  have hj : joinDots p.reverse = joinDots q.reverse := List.append_cancel_right h
  have h1 := splitDots_joinDots p.reverse (by simpa using hp)
    (fun l hl => hpd l (List.mem_reverse.mp hl))
  have h2 := splitDots_joinDots q.reverse (by simpa using hq)
    (fun l hl => hqd l (List.mem_reverse.mp hl))
  rw [hj, h2] at h1
  exact List.reverse_injective h1.symm

/-! ## The written lines and the reference semantics -/

theorem labelPath_dotfree (line : Bytes) : ∀ l ∈ labelPath line, 46 ∉ l := by
  intro l hl
  exact splitDots_labels_dotfree _ l (List.mem_reverse.mp hl)

theorem prefix_dotfree {p r : List Bytes} (h : p <+: r) (hr : ∀ l ∈ r, 46 ∉ l) :
    ∀ l ∈ p, 46 ∉ l :=
  fun l hl => hr l (h.subset hl)

/-- For a non-empty path without dots, the lines whose label path begins with it are the
lines that have its written form as a domain suffix. -/
theorem beginsWith_eq_hasSuffix (p : List Bytes) (hp : p ≠ []) (hpd : ∀ l ∈ p, 46 ∉ l)
    (line : Bytes) : beginsWith p line = hasSuffix (joinDots p.reverse) line := by
  unfold beginsWith hasSuffix
  congr 1
  rw [decide_eq_decide]
  unfold labelPath suffixesOf
  constructor
  · intro h
    have hsuf : p.reverse <:+ splitDots (normalise line) := by
      have := List.reverse_suffix.mpr h
      simpa using this
    refine List.mem_map.mpr ⟨p.reverse, ?_, rfl⟩
    rw [List.mem_filter]
    exact ⟨(List.mem_tails _ _).mpr hsuf, by simpa using hp⟩
  · intro h
    obtain ⟨tl, htl, hj⟩ := List.mem_map.mp h
    rw [List.mem_filter] at htl
    obtain ⟨htails, hne⟩ := htl
    have hne2 : tl ≠ [] := by simpa using hne
    have hsuf : tl <:+ splitDots (normalise line) := (List.mem_tails _ _).mp htails
    have htd : ∀ l ∈ tl, 46 ∉ l :=
      fun l hl => splitDots_labels_dotfree _ l (hsuf.subset hl)
    have h1 := splitDots_joinDots tl hne2 htd
    have h2 := splitDots_joinDots p.reverse (by simpa using hp)
      (fun l hl => hpd l (List.mem_reverse.mp hl))
    rw [hj, h2] at h1
    rw [← h1] at hsuf
    have := List.reverse_prefix.mpr hsuf
    simpa using this

theorem linesThrough_eq_occurrences (lines : List Bytes) (p : List Bytes) (hp : p ≠ [])
    (hpd : ∀ l ∈ p, 46 ∉ l) : linesThrough lines p = occurrences lines (joinDots p.reverse) := by
  unfold linesThrough occurrences
  congr 1
  funext line
  exact beginsWith_eq_hasSuffix p hp hpd line

theorem countP_le_one {α β : Type} [DecidableEq β] (f : α → β) (P : α → Bool) :
    ∀ (L : List α), (L.map f).Nodup →
    (∀ x ∈ L, ∀ y ∈ L, P x = true → P y = true → f x = f y) → L.countP P ≤ 1 := by
  intro L
  induction L with
  | nil => intro _ _; simp
  | cons x L ih =>
    intro hn hP
    simp only [List.map_cons, List.nodup_cons] at hn
    rw [List.countP_cons]
    by_cases hx : P x = true
    · have hzero : L.countP P = 0 := by
        rw [List.countP_eq_zero]
        intro y hy hPy
        have := hP x (List.mem_cons_self _ _) y (List.mem_cons_of_mem _ hy) hx hPy
        exact hn.1 (this ▸ List.mem_map_of_mem f hy)
      simp [hx, hzero]
    · have := ih hn.2 (fun a ha b hb => hP a (List.mem_cons_of_mem _ ha) b
        (List.mem_cons_of_mem _ hb))
      simp [hx, this]

theorem run_eq (lines : List Bytes) (threshold : Int) :
    ∃ t, processLines lines emptyRoot = some t ∧
      run lines threshold = some (report [] threshold (nodes t)) := by
  obtain ⟨t, ht⟩ := processLines_total lines emptyRoot
  refine ⟨t, ht, ?_⟩
  unfold run
  rw [ht]
  simp only [Option.some_bind]
  rw [traverseTrie_eq]
  simp

/-- The paths of the trie of `lines`: non-empty prefixes of label paths of its lines. -/
theorem present_built (lines : List Bytes) (t : TrieNode)
    (ht : processLines lines emptyRoot = some t) (p : List Bytes) (hp : p ≠ []) :
    present t p = lines.any (beginsWith p) := by
  rw [present_processLines lines emptyRoot t ht p, present_emptyRoot p hp]
  simp

theorem countAt_built (lines : List Bytes) (t : TrieNode)
    (ht : processLines lines emptyRoot = some t) (p : List Bytes) (hp : p ≠ []) :
    countAt t p = (linesThrough lines p : Int) := by
  rw [countAt_processLines lines emptyRoot t ht p hp, countAt_emptyRoot]
  simp

theorem built_path_dotfree (lines : List Bytes) (t : TrieNode)
    (ht : processLines lines emptyRoot = some t) (p : List Bytes) (hp : p ≠ [])
    (hpres : present t p = true) : ∀ l ∈ p, 46 ∉ l := by
  rw [present_built lines t ht p hp, List.any_eq_true] at hpres
  obtain ⟨line, _, hb⟩ := hpres
  unfold beginsWith at hb
  simp only [Bool.and_eq_true, decide_eq_true_eq] at hb
  exact prefix_dotfree hb.2 (labelPath_dotfree line)

theorem linesThrough_pos_iff (lines : List Bytes) (p : List Bytes) :
    0 < linesThrough lines p ↔ lines.any (beginsWith p) = true := by
  unfold linesThrough
  rw [List.countP_pos_iff, List.any_eq_true]

theorem present_of_mem_nodes {t : TrieNode} (ht : UniqueKeys t) {p : List Bytes} {c : Int}
    (h : (p, c) ∈ nodes t) : present t p = true ∧ countAt t p = c := by
  obtain ⟨n, hn, hc⟩ := (mem_nodes_iff p t c ht).mp h
  simp [present, countAt, hn, hc]

theorem mem_nodes_of_present {t : TrieNode} (ht : UniqueKeys t) {p : List Bytes}
    (h : present t p = true) : (p, countAt t p) ∈ nodes t := by
  unfold present at h
  obtain ⟨n, hn⟩ := Option.isSome_iff_exists.mp h
  exact (mem_nodes_iff p t _ ht).mpr ⟨n, hn, by simp [countAt, hn]⟩

theorem report_nil_eq (threshold : Int) (ns : List (List Bytes × Int)) :
    report [] threshold ns
      = (ns.filter (fun pc => decide (pc.2 ≥ threshold) && decide (pc.1 ≠ []))).map
          (fun pc => emitted pc.1) := by
  simp [report]

/-- How often the line of `s` is among the lines written for the trie of `lines`. -/
theorem report_count (lines : List Bytes) (t : TrieNode)
    (ht : processLines lines emptyRoot = some t) (threshold : Int) (s : Bytes) :
    (report [] threshold (nodes t)).count (s ++ [10])
      = if 1 ≤ occurrences lines s ∧ threshold ≤ (occurrences lines s : Int) then 1 else 0 := by
  have hU : UniqueKeys t := uniqueKeys_processLines lines emptyRoot t uniqueKeys_emptyRoot ht
  rw [report_nil_eq, List.count_eq_countP, List.countP_map, List.countP_filter]
  set R : List Bytes × Int → Bool := fun pc =>
    (((fun x => x == s ++ [10]) ∘ fun pc => emitted pc.1) pc
      && (decide (pc.2 ≥ threshold) && decide (pc.1 ≠ []))) with hR
  have hRiff : ∀ pc, R pc = true ↔ emitted pc.1 = s ++ [10] ∧ pc.2 ≥ threshold ∧ pc.1 ≠ [] := by
    intro pc
    simp [hR]
  have hfacts : ∀ pc ∈ nodes t, R pc = true →
      (∀ l ∈ pc.1, 46 ∉ l) ∧ joinDots pc.1.reverse = s
        ∧ pc.2 = (occurrences lines s : Int) ∧ lines.any (beginsWith pc.1) = true := by
    intro pc hpc hRpc
    obtain ⟨p, c⟩ := pc
    obtain ⟨hem, hth, hne⟩ := (hRiff _).mp hRpc
    simp only at hem hth hne ⊢
    obtain ⟨hpres, hcnt⟩ := present_of_mem_nodes hU hpc
    have hdf := built_path_dotfree lines t ht p hne hpres
    have hj : joinDots p.reverse = s := List.append_cancel_right hem
    refine ⟨hdf, hj, ?_, ?_⟩
    · rw [← hcnt, countAt_built lines t ht p hne, linesThrough_eq_occurrences lines p hne hdf, hj]
    · rw [← present_built lines t ht p hne]; exact hpres
  have hle : (nodes t).countP R ≤ 1 := by
    refine countP_le_one Prod.fst R (nodes t) (nodup_nodes t hU) ?_
    intro x hx y hy hRx hRy
    obtain ⟨hxd, _, _, _⟩ := hfacts x hx hRx
    obtain ⟨hyd, _, _, _⟩ := hfacts y hy hRy
    obtain ⟨hex, _, hxne⟩ := (hRiff x).mp hRx
    obtain ⟨hey, _, hyne⟩ := (hRiff y).mp hRy
    exact emitted_injective x.1 y.1 hxne hyne hxd hyd (hex.trans hey.symm)
  by_cases hcond : 1 ≤ occurrences lines s ∧ threshold ≤ (occurrences lines s : Int)
  · rw [if_pos hcond]
    have hpos : 0 < (nodes t).countP R := by
      rw [List.countP_pos_iff]
      obtain ⟨h1, h2⟩ := hcond
      have hany : ∃ line ∈ lines, hasSuffix s line = true := by
        have : 0 < lines.countP (hasSuffix s) := h1
        exact List.countP_pos_iff.mp this
      obtain ⟨line, hline, hs⟩ := hany
      have hs2 := hs
      unfold hasSuffix at hs
      simp only [Bool.and_eq_true, decide_eq_true_eq] at hs
      unfold suffixesOf at hs
      obtain ⟨tl, htl, hj⟩ := List.mem_map.mp hs.2
      rw [List.mem_filter] at htl
      have hne2 : tl ≠ [] := by simpa using htl.2
      have hsuf : tl <:+ splitDots (normalise line) := (List.mem_tails _ _).mp htl.1
      have htd : ∀ l ∈ tl, 46 ∉ l :=
        fun l hl => splitDots_labels_dotfree _ l (hsuf.subset hl)
      have hpne : tl.reverse ≠ [] := by simpa using hne2
      have hpd : ∀ l ∈ tl.reverse, 46 ∉ l := fun l hl => htd l (List.mem_reverse.mp hl)
      have hjp : joinDots tl.reverse.reverse = s := by simpa using hj
      have hb : beginsWith tl.reverse line = true := by
        rw [beginsWith_eq_hasSuffix tl.reverse hpne hpd line, hjp]; exact hs2
      have hpres : present t tl.reverse = true := by
        rw [present_built lines t ht _ hpne, List.any_eq_true]
        exact ⟨line, hline, hb⟩
      refine ⟨(tl.reverse, countAt t tl.reverse), mem_nodes_of_present hU hpres, ?_⟩
      rw [hRiff]
      refine ⟨?_, ?_, hpne⟩
      · simp only [emitted, hjp]
      · simp only
        rw [countAt_built lines t ht _ hpne, linesThrough_eq_occurrences lines _ hpne hpd, hjp]
        exact h2
    omega
  · rw [if_neg hcond]
    rw [List.countP_eq_zero]
    intro pc hpc hRpc
    obtain ⟨_, _, hocc, hany⟩ := hfacts pc hpc hRpc
    obtain ⟨_, hth, hne⟩ := (hRiff pc).mp hRpc
    apply hcond
    obtain ⟨hdf, hj, _, _⟩ := hfacts pc hpc hRpc
    have hpos : 0 < linesThrough lines pc.1 := (linesThrough_pos_iff lines pc.1).mpr hany
    rw [linesThrough_eq_occurrences lines pc.1 hne hdf, hj] at hpos
    refine ⟨hpos, ?_⟩
    rw [← hocc]
    exact hth

theorem processLines_eq : ∀ (lines : List Bytes) (root : TrieNode),
    processLines lines root = some (buildTrie lines root) := by
  intro lines
  induction lines with
  | nil => intro root; rfl
  | cons line rest ih =>
    intro root
    rw [processLines_cons, ih, buildTrie]

theorem run_closed (lines : List Bytes) (threshold : Int) :
    run lines threshold = some (report [] threshold (nodes (buildTrie lines emptyRoot))) := by
  obtain ⟨t, ht, hrun⟩ := run_eq lines threshold
  rw [processLines_eq] at ht
  injection ht with ht
  rw [hrun, ht]

theorem mem_nodes_of_findNode : ∀ (p : List Bytes) (t n : TrieNode),
    findNode t p = some n → (p, n.Count) ∈ nodes t := by
  intro p
  induction p with
  | nil =>
    intro t n h
    obtain ⟨count, cs⟩ := t
    simp only [findNode, Option.some.injEq] at h
    subst h
    rw [mem_nodes_mk]
    exact Or.inl rfl
  | cons l p1 ih =>
    intro t n h
    obtain ⟨count, cs⟩ := t
    simp only [findNode] at h
    cases hlk : lookupChild cs l with
    | none => rw [hlk] at h; simp at h
    | some ch =>
      rw [hlk] at h
      simp only at h
      rw [mem_nodes_mk, mem_childNodes]
      exact Or.inr ⟨(l, ch), lookupChild_mem hlk, (p1, n.Count), ih ch n h, rfl⟩

theorem beginsWith_append_le (p : List Bytes) (l : Bytes) (line : Bytes)
    (h : beginsWith (p ++ [l]) line = true) : beginsWith p line = true := by
  unfold beginsWith at h ⊢
  simp only [Bool.and_eq_true, decide_eq_true_eq] at h ⊢
  exact ⟨h.1, (List.prefix_append p [l]).trans h.2⟩

theorem linesThrough_append_le (lines : List Bytes) (p q : List Bytes) :
    linesThrough lines (p ++ q) ≤ linesThrough lines p := by
  unfold linesThrough
  apply List.countP_mono_left
  intro line _ h
  unfold beginsWith at h ⊢
  simp only [Bool.and_eq_true, decide_eq_true_eq] at h ⊢
  exact ⟨h.1, (List.prefix_append p q).trans h.2⟩

/-! # The claims -/

/-- C1. End-to-end reference semantics. For every list of input lines and every integer
threshold the program (processLine on each line from an empty root, then traverseTrie)
writes only newline-terminated lines, and the line of a string `s` is written exactly once
when `s` is a domain suffix of at least one non-blank normalised input line and the number
of input lines having `s` as a suffix reaches the threshold, and is not written otherwise.
The lines a.b.c, x.b.c, y.b.c with threshold 2 give c and b.c; the lines foo.com, foo.com,
bar.com with threshold 2 give com and foo.com. -/
theorem run_reference_semantics :
    (∀ (lines : List Bytes) (threshold : Int), ∃ out, run lines threshold = some out ∧
      (∀ x ∈ out, ∃ s, x = s ++ [10]) ∧
      ∀ s, out.count (s ++ [10])
        = if 1 ≤ occurrences lines s ∧ threshold ≤ (occurrences lines s : Int) then 1 else 0)
    ∧ run [[97, 46, 98, 46, 99], [120, 46, 98, 46, 99], [121, 46, 98, 46, 99]] 2
        = some [[99, 10], [98, 46, 99, 10]]
    ∧ run [[102, 111, 111, 46, 99, 111, 109], [102, 111, 111, 46, 99, 111, 109],
          [98, 97, 114, 46, 99, 111, 109]] 2
        = some [[99, 111, 109, 10], [102, 111, 111, 46, 99, 111, 109, 10]] := by
  refine ⟨?_, ?_, ?_⟩
  · intro lines threshold
    obtain ⟨t, ht, hrun⟩ := run_eq lines threshold
    refine ⟨_, hrun, ?_, fun s => report_count lines t ht threshold s⟩
    intro x hx
    rw [report_nil_eq] at hx
    obtain ⟨pc, _, hpc⟩ := List.mem_map.mp hx
    exact ⟨joinDots pc.1.reverse, hpc.symm⟩
  · rw [run_closed]; decide
  · rw [run_closed]; decide

/-- C2. Exact-count invariant. After processLine on every line of an input list from an
empty root, the Count at every non-empty label path (0 when there is no node) is the
number of input lines whose label path, top-level label first, begins with that path; it
depends on the first labels of a line only, and at depth 1 it is the number of lines with
that top-level label. -/
theorem exact_count_invariant (lines : List Bytes) :
    ∃ t, processLines lines emptyRoot = some t ∧
      (∀ p, p ≠ [] → countAt t p = (linesThrough lines p : Int)) ∧
      (∀ p, p ≠ [] → countAt t p
        = (lines.countP (fun l => !isBlank l && ((labelPath l).take p.length == p)) : Nat)) ∧
      (∀ top, countAt t [top]
        = (lines.countP (fun l => !isBlank l && ((labelPath l).head? == some top)) : Nat)) := by
  obtain ⟨t, ht⟩ := processLines_total lines emptyRoot
  have h1 : ∀ p, p ≠ [] → countAt t p = (linesThrough lines p : Int) :=
    fun p hp => countAt_built lines t ht p hp
  refine ⟨t, ht, h1, ?_, ?_⟩
  · intro p hp
    rw [h1 p hp]
    unfold linesThrough
    congr 2
    funext l
    unfold beginsWith
    congr 1
    rw [Bool.eq_iff_iff]
    simp only [decide_eq_true_eq, beq_iff_eq]
    constructor
    · intro h; exact (List.prefix_iff_eq_take.mp h).symm
    · intro h; rw [← h]; exact List.take_prefix _ _
  · intro top
    rw [h1 [top] (by simp)]
    unfold linesThrough
    congr 2
    funext l
    unfold beginsWith
    congr 1
    rw [Bool.eq_iff_iff]
    simp only [decide_eq_true_eq, beq_iff_eq]
    cases labelPath l with
    | nil => simp
    | cons a b => simp [List.cons_prefix_cons, eq_comm]

/-- C3. Reporter exactness on an arbitrary trie. traverseTrie(root, [], threshold) writes,
for the nodes of the trie in traversal order, one line for each node that is not the root
and whose Count is at least the threshold, the labels of its path in reverse order joined
by `'.'` and ended by a newline, and nothing else; every node a label path reaches is among
these nodes; and at a node below the root the node's own line is written when its Count is
the threshold and is not written when its Count is the threshold minus one. -/
theorem traverseTrie_exact (t : TrieNode) (threshold : Int) :
    traverseTrie t [] threshold []
        = some (((nodes t).filter
            (fun pc => decide (pc.2 ≥ threshold) && decide (pc.1 ≠ []))).map
            (fun pc => joinDots pc.1.reverse ++ [10]))
    ∧ (∀ p n, findNode t p = some n → (p, n.Count) ∈ nodes t)
    ∧ (∀ (p : List Bytes) (children : List (Bytes × TrieNode)) (w : List Bytes), p ≠ [] →
        traverseTrie (.mk threshold children) p threshold w
            = traverseChildren children p threshold (w ++ [joinDots p.reverse ++ [10]])
        ∧ traverseTrie (.mk (threshold - 1) children) p threshold w
            = traverseChildren children p threshold w) := by
  refine ⟨?_, fun p n h => mem_nodes_of_findNode p t n h, ?_⟩
  · rw [traverseTrie_eq, report_nil_eq]
    rfl
  · intro p children w hp
    have hlen : p.length > 0 := List.length_pos.mpr hp
    constructor
    · rw [traverseTrie, if_pos ⟨le_refl _, hlen⟩, labelsToDomain_eq p hp]
    · rw [traverseTrie, if_neg (by intro h; have := h.1; omega)]

/-- C6. No duplicate output lines. In the trie of any list of input lines two different
non-empty label paths with a node never write the same string: the map from the path to
the written line (reverse, join with `'.'`) is injective on the paths of the trie; so for
every threshold no line is written twice. -/
theorem no_duplicate_output (lines : List Bytes) (threshold : Int) :
    ∃ t out, processLines lines emptyRoot = some t ∧ run lines threshold = some out ∧
      (∀ p q, p ≠ [] → q ≠ [] → present t p = true → present t q = true →
        joinDots p.reverse = joinDots q.reverse → p = q) ∧
      out.Nodup := by
  obtain ⟨t, ht, hrun⟩ := run_eq lines threshold
  refine ⟨t, _, ht, hrun, ?_, ?_⟩
  · intro p q hp hq hpp hpq h
    refine emitted_injective p q hp hq (built_path_dotfree lines t ht p hp hpp)
      (built_path_dotfree lines t ht q hq hpq) ?_
    unfold emitted
    rw [h]
  · have hU : UniqueKeys t := uniqueKeys_processLines lines emptyRoot t uniqueKeys_emptyRoot ht
    have hnd := nodup_nodes t hU
    rw [report_nil_eq]
    refine List.Nodup.map_on ?_ ((List.Nodup.of_map Prod.fst hnd).filter _)
    intro x hx y hy hxy
    rw [List.mem_filter] at hx hy
    obtain ⟨hxm, hxq⟩ := hx
    obtain ⟨hym, hyq⟩ := hy
    simp only [Bool.and_eq_true, decide_eq_true_eq] at hxq hyq
    obtain ⟨px, cx⟩ := x
    obtain ⟨py, cy⟩ := y
    obtain ⟨hpx, _⟩ := present_of_mem_nodes hU hxm
    obtain ⟨hpy, _⟩ := present_of_mem_nodes hU hym
    have hfst : px = py :=
      emitted_injective px py hxq.2 hyq.2 (built_path_dotfree lines t ht px hxq.2 hpx)
        (built_path_dotfree lines t ht py hyq.2 hpy) hxy
    exact List.inj_on_of_nodup_map hnd hxm hym hfst

/-- C9. Monotonicity along paths. In the trie of any list of input lines, for a node `n1`
below the root and a child `n2` of `n1`, Count(n1) >= Count(n2); with no node counting
as 0 the same holds at every non-empty label path and every label. -/
theorem count_monotone_along_paths (lines : List Bytes) :
    ∃ t, processLines lines emptyRoot = some t ∧
      (∀ p label n1 n2, p ≠ [] → findNode t p = some n1 →
        findNode t (p ++ [label]) = some n2 → n2.Count ≤ n1.Count) ∧
      (∀ p label, p ≠ [] → countAt t (p ++ [label]) ≤ countAt t p) := by
  obtain ⟨t, ht⟩ := processLines_total lines emptyRoot
  have hmono : ∀ p label, p ≠ [] → countAt t (p ++ [label]) ≤ countAt t p := by
    intro p label hp
    rw [countAt_built lines t ht p hp, countAt_built lines t ht (p ++ [label]) (by simp)]
    exact_mod_cast linesThrough_append_le lines p [label]
  refine ⟨t, ht, ?_, hmono⟩
  intro p label n1 n2 hp h1 h2
  have := hmono p label hp
  simpa [countAt, h1, h2] using this

/-! ## Letter case -/

theorem toLowerByte_upper (a : Nat) (h1 : 65 ≤ a) (h2 : a ≤ 90) : toLowerByte a = a + 32 := by
  unfold toLowerByte unicodeToLower
  rw [if_pos (by omega), if_pos ⟨h1, h2⟩]
  omega

theorem toLowerByte_lower (a : Nat) (h1 : 97 ≤ a) (h2 : a ≤ 122) : toLowerByte a = a := by
  unfold toLowerByte unicodeToLower
  rw [if_pos (by omega), if_neg (by omega)]
  omega

theorem isSpaceByte_letter (a : Nat) (h1 : 65 ≤ a) (h2 : a ≤ 122) : isSpaceByte a = false := by
  unfold isSpaceByte
  simp only [Bool.or_eq_false_iff, beq_eq_false_iff_ne, ne_eq]
  omega

theorem sameLetter_fold (a b : Nat) (h : sameLetter a b = true) :
    isSpaceByte a = isSpaceByte b ∧ toLowerByte a = toLowerByte b := by
  unfold sameLetter at h
  simp only [Bool.or_eq_true, Bool.and_eq_true, decide_eq_true_eq, beq_iff_eq] at h
  rcases h with (h | ⟨⟨h1, h2⟩, h3⟩) | ⟨⟨h1, h2⟩, h3⟩
  · subst h; exact ⟨rfl, rfl⟩
  · subst h3
    constructor
    · rw [isSpaceByte_letter a h1 (by omega), isSpaceByte_letter (a + 32) (by omega) (by omega)]
    · rw [toLowerByte_upper a h1 h2, toLowerByte_lower (a + 32) (by omega) (by omega)]
  · subst h3
    constructor
    · rw [isSpaceByte_letter b h1 (by omega), isSpaceByte_letter (b + 32) (by omega) (by omega)]
    · rw [toLowerByte_upper b h1 h2, toLowerByte_lower (b + 32) (by omega) (by omega)]

theorem caseVariant_dropWhile : ∀ (x y : Bytes), caseVariant x y →
    caseVariant (x.dropWhile isSpaceByte) (y.dropWhile isSpaceByte) := by
  intro x y h
  induction h with
  | nil => exact List.Forall₂.nil
  | @cons a b x1 y1 hab hrest ih =>
    have hsp := (sameLetter_fold a b hab).1
    rw [List.dropWhile_cons, List.dropWhile_cons, ← hsp]
    split
    · exact ih
    · exact List.Forall₂.cons hab hrest

theorem caseVariant_reverse (x y : Bytes) (h : caseVariant x y) :
    caseVariant x.reverse y.reverse :=
  List.rel_reverse h

theorem caseVariant_trimSpec (x y : Bytes) (h : caseVariant x y) :
    caseVariant (trimSpec x) (trimSpec y) := by
  unfold trimSpec List.rdropWhile
  exact caseVariant_reverse _ _ (caseVariant_dropWhile _ _
    (caseVariant_reverse _ _ (caseVariant_dropWhile _ _ h)))

theorem caseVariant_map_fold : ∀ (x y : Bytes), caseVariant x y →
    x.map toLowerByte = y.map toLowerByte := by
  intro x y h
  induction h with
  | nil => rfl
  | @cons a b x1 y1 hab _ ih =>
    rw [List.map_cons, List.map_cons, ih, (sameLetter_fold a b hab).2]

theorem caseVariant_isBlank : ∀ (x y : Bytes), caseVariant x y → isBlank x = isBlank y := by
  intro x y h
  unfold isBlank
  induction h with
  | nil => rfl
  | @cons a b x1 y1 hab _ ih =>
    rw [List.all_cons, List.all_cons, ih, (sameLetter_fold a b hab).1]

theorem caseVariant_labelPath (x y : Bytes) (h : caseVariant x y) :
    labelPath x = labelPath y := by
  unfold labelPath normalise
  rw [caseVariant_map_fold _ _ (caseVariant_trimSpec x y h)]

theorem caseVariant_processLine (t : TrieNode) (x y : Bytes) (h : caseVariant x y) :
    processLine x t = processLine y t := by
  rw [processLine_eq, processLine_eq, caseVariant_isBlank x y h, caseVariant_labelPath x y h]

theorem caseVariant_processLines : ∀ (xs ys : List Bytes), List.Forall₂ caseVariant xs ys →
    ∀ (t : TrieNode), processLines xs t = processLines ys t := by
  intro xs ys h
  induction h with
  | nil => intro t; rfl
  | @cons x y xs1 ys1 hxy _ ih =>
    intro t
    rw [processLines, processLines, caseVariant_processLine t x y hxy]
    cases processLine y t with
    | none => rfl
    | some t1 => exact ih t1

/-- C7. Case-insensitivity of aggregation. For every trie and every two lines that differ
in the case of ASCII letters only, processLine gives the same trie; so for every two input
lists that differ line by line in letter case only, the tries (every node Count with them)
and, for every threshold, what the reporter writes are the same. -/
theorem case_insensitive (x y : Bytes) (h : caseVariant x y) :
    (∀ t, processLine x t = processLine y t) ∧
    (∀ (before after : List Bytes) (t : TrieNode),
      processLines (before ++ x :: after) t = processLines (before ++ y :: after) t) ∧
    (∀ (before after : List Bytes) (threshold : Int),
      run (before ++ x :: after) threshold = run (before ++ y :: after) threshold) := by
  have hrefl : ∀ l : List Bytes, List.Forall₂ caseVariant l l := by
    intro l
    induction l with
    | nil => exact List.Forall₂.nil
    | cons a l ih =>
      refine List.Forall₂.cons ?_ ih
      unfold caseVariant
      induction a with
      | nil => exact List.Forall₂.nil
      | cons c a iha => exact List.Forall₂.cons (by simp [sameLetter]) iha
  have hlists : ∀ before after : List Bytes,
      List.Forall₂ caseVariant (before ++ x :: after) (before ++ y :: after) := by
    intro before after
    exact List.rel_append (hrefl before) (List.Forall₂.cons h (hrefl after))
  refine ⟨fun t => caseVariant_processLine t x y h, ?_, ?_⟩
  · intro before after t
    exact caseVariant_processLines _ _ (hlists before after) t
  · intro before after threshold
    unfold run
    rw [caseVariant_processLines _ _ (hlists before after) emptyRoot]

/-- C7, at the lines `Foo.COM` and `fOO.com`. -/
theorem case_insensitive_witness :
    (∀ t, processLine [70, 111, 111, 46, 67, 79, 77] t
        = processLine [102, 79, 79, 46, 99, 111, 109] t) ∧
    (∀ (before after : List Bytes) (t : TrieNode),
      processLines (before ++ [70, 111, 111, 46, 67, 79, 77] :: after) t
        = processLines (before ++ [102, 79, 79, 46, 99, 111, 109] :: after) t) ∧
    (∀ (before after : List Bytes) (threshold : Int),
      run (before ++ [70, 111, 111, 46, 67, 79, 77] :: after) threshold
        = run (before ++ [102, 79, 79, 46, 99, 111, 109] :: after) threshold) :=
  case_insensitive [70, 111, 111, 46, 67, 79, 77] [102, 79, 79, 46, 99, 111, 109]
    (by unfold caseVariant; repeat (first | exact List.Forall₂.nil | refine List.Forall₂.cons (by decide) ?_))

/-! ## The case fold -/

theorem toLowerByte_closed (b : Nat) (hb : b < 256) :
    toLowerByte b
      = if (65 ≤ b ∧ b ≤ 90) ∨ (192 ≤ b ∧ b ≤ 214) ∨ (216 ≤ b ∧ b ≤ 222) then b + 32 else b := by
  unfold toLowerByte unicodeToLower caseRangesLatin1
  simp only [caseLookup]
  split_ifs <;> omega

theorem toLowerByte_dot_iff (b : Nat) (hb : b < 256) : toLowerByte b = 46 ↔ b = 46 := by
  rw [toLowerByte_closed b hb]
  split_ifs <;> omega

/-- C8, as the code has it. For every byte string the fold of processLine keeps the length
and maps, position by position, each byte `'A'..'Z'` to the matching `'a'..'z'`, each byte
0xC0..0xD6 and 0xD8..0xDE (the capital letters of Latin-1, as unicode.ToLower sees the byte)
to the byte 0x20 above it, and every other byte value 0..255 to itself; a byte is `'.'`
after the fold exactly where it was `'.'` before. -/
theorem fold_scope (s : Bytes) (hbytes : ∀ c ∈ s, c < 256) :
    (lowerInPlace s).length = s.length ∧
    (∀ (i : Nat) (b : Nat), s[i]? = some b → (lowerInPlace s)[i]? = some
      (if (65 ≤ b ∧ b ≤ 90) ∨ (192 ≤ b ∧ b ≤ 214) ∨ (216 ≤ b ∧ b ≤ 222) then b + 32 else b)) ∧
    (∀ i : Nat, (lowerInPlace s)[i]? = some 46 ↔ s[i]? = some 46) := by
  unfold lowerInPlace
  refine ⟨List.length_map _ _, ?_, ?_⟩
  · intro i b hb
    rw [List.getElem?_map, hb, Option.map_some', toLowerByte_closed b]
    exact hbytes b (List.getElem?_mem hb)
  · intro i
    rw [List.getElem?_map]
    cases hget : s[i]? with
    | none => simp
    | some b =>
      have hb256 := hbytes b (List.getElem?_mem hget)
      simp only [Option.map_some', Option.some.injEq]
      exact toLowerByte_dot_iff b hb256

/-- C8, at the bytes of `A.é~` in UTF-8: `A` is folded, the first byte of `é` is changed. -/
theorem fold_scope_witness :
    (lowerInPlace [65, 46, 195, 169, 126]).length = ([65, 46, 195, 169, 126] : Bytes).length ∧
    (∀ (i : Nat) (b : Nat), ([65, 46, 195, 169, 126] : Bytes)[i]? = some b →
      (lowerInPlace [65, 46, 195, 169, 126])[i]? = some
        (if (65 ≤ b ∧ b ≤ 90) ∨ (192 ≤ b ∧ b ≤ 214) ∨ (216 ≤ b ∧ b ≤ 222) then b + 32
          else b)) ∧
    (∀ i : Nat, (lowerInPlace [65, 46, 195, 169, 126])[i]? = some 46
      ↔ ([65, 46, 195, 169, 126] : Bytes)[i]? = some 46) :=
  fold_scope [65, 46, 195, 169, 126] (by decide)

/-- C8 as stated fails at the byte 0xC3, the first byte of `é` in UTF-8: it is not an
ASCII upper-case letter, and the fold of processLine maps it to 0xE3. -/
theorem fold_changes_non_ascii_byte :
    ¬ (65 ≤ 195 ∧ 195 ≤ 90) ∧ 128 ≤ 195 ∧ 195 < 256 ∧ toLowerByte 195 = 227 ∧
    lowerInPlace [195, 169] = [227, 169] := by
  decide

/-! ## Pruning -/

theorem descending_inv {count : Int} {children : List (Bytes × TrieNode)}
    (h : Descending (.mk count children)) :
    0 ≤ count ∧ ∀ kv ∈ children, kv.2.Count ≤ count ∧ Descending kv.2 := by
  cases h with
  | mk _ _ h1 h2 h3 => exact ⟨h1, fun kv hkv => ⟨h2 kv hkv, h3 kv hkv⟩⟩

theorem descending_mk (count : Int) (children : List (Bytes × TrieNode)) (h0 : 0 ≤ count)
    (h : ∀ kv ∈ children, kv.2.Count ≤ count ∧ Descending kv.2) :
    Descending (.mk count children) :=
  Descending.mk count children h0 (fun kv hkv => (h kv hkv).1) (fun kv hkv => (h kv hkv).2)

/-- Below a node that has just been counted, the insertion loop keeps the Counts
descending. -/
theorem descending_insertLoop : ∀ (r : List Bytes) (c : Int) (ch : List (Bytes × TrieNode)),
    Descending (.mk c ch) →
    Descending (insertLoop r (.mk (c + 1) ch)) ∧ (insertLoop r (.mk (c + 1) ch)).Count = c + 1 := by
  intro r
  induction r with
  | nil =>
    intro c ch h
    obtain ⟨h0, hch⟩ := descending_inv h
    refine ⟨descending_mk _ _ (by omega) ?_, rfl⟩
    intro kv hkv
    obtain ⟨h1, h2⟩ := hch kv hkv
    exact ⟨by omega, h2⟩
  | cons label rest ih =>
    intro c ch h
    obtain ⟨h0, hch⟩ := descending_inv h
    cases hget : (lookupChild ch label).getD (.mk 0 []) with
    | mk c1 ch1 =>
      have hins : insertLoop (label :: rest) (.mk (c + 1) ch)
          = .mk (c + 1) (setChild ch label (insertLoop rest (.mk (c1 + 1) ch1))) := by
        simp only [insertLoop, hget]
      rw [hins]
      have hchild : Descending (.mk c1 ch1) ∧ c1 ≤ c := by
        cases hlk : lookupChild ch label with
        | none =>
          rw [hlk] at hget
          simp only [Option.getD_none] at hget
          injection hget with e1 e2
          subst e1 e2
          exact ⟨descending_mk 0 [] (le_refl _) (by simp), h0⟩
        | some child =>
          rw [hlk] at hget
          simp only [Option.getD_some] at hget
          obtain ⟨h1, h2⟩ := hch _ (lookupChild_mem hlk)
          rw [hget] at h1 h2
          exact ⟨h2, h1⟩
      obtain ⟨hX, hXc⟩ := ih c1 ch1 hchild.1
      refine ⟨descending_mk _ _ (by omega) ?_, rfl⟩
      intro kv hkv
      rcases mem_setChild hkv with h1 | h1
      · obtain ⟨h2, h3⟩ := hch kv h1
        exact ⟨by omega, h3⟩
      · rw [h1]
        simp only
        exact ⟨by rw [hXc]; omega, hX⟩

/-- The subtrees under the root stay descending when a path is inserted. -/
theorem rootDescending_insertLoop (r : List Bytes) (count : Int)
    (children : List (Bytes × TrieNode)) (h : ∀ kv ∈ children, Descending kv.2) :
    ∀ kv ∈ (insertLoop r (.mk count children)).Children, Descending kv.2 := by
  cases r with
  | nil => exact h
  | cons label rest =>
    cases hget : (lookupChild children label).getD (.mk 0 []) with
    | mk c1 ch1 =>
      have hins : insertLoop (label :: rest) (.mk count children)
          = .mk count (setChild children label (insertLoop rest (.mk (c1 + 1) ch1))) := by
        simp only [insertLoop, hget]
      rw [hins]
      have hchild : Descending (.mk c1 ch1) := by
        cases hlk : lookupChild children label with
        | none =>
          rw [hlk] at hget
          simp only [Option.getD_none] at hget
          injection hget with e1 e2
          subst e1 e2
          exact descending_mk 0 [] (le_refl _) (by simp)
        | some child =>
          rw [hlk] at hget
          simp only [Option.getD_some] at hget
          have := h _ (lookupChild_mem hlk)
          rw [hget] at this
          exact this
      intro kv hkv
      simp only [TrieNode.Children] at hkv
      rcases mem_setChild hkv with h1 | h1
      · exact h kv h1
      · rw [h1]
        exact (descending_insertLoop rest c1 ch1 hchild).1

theorem rootDescending_processLines : ∀ (lines : List Bytes) (root t : TrieNode),
    (∀ kv ∈ root.Children, Descending kv.2) → processLines lines root = some t →
    ∀ kv ∈ t.Children, Descending kv.2 := by
  intro lines
  induction lines with
  | nil =>
    intro root t h ht
    simp only [processLines, Option.some.injEq] at ht
    exact ht ▸ h
  | cons line rest ih =>
    intro root t h ht
    rw [processLines_cons] at ht
    refine ih _ t ?_ ht
    split
    · exact h
    · obtain ⟨count, children⟩ := root
      exact rootDescending_insertLoop _ count children h

/-- In a descending subtree no node has a higher Count than the node on top. -/
theorem descending_nodes_le : ∀ (q : List Bytes) (t : TrieNode) (c : Int), Descending t →
    (q, c) ∈ nodes t → c ≤ t.Count := by
  intro q
  induction q with
  | nil =>
    intro t c _ hmem
    obtain ⟨count, cs⟩ := t
    rw [mem_nodes_mk, mem_childNodes] at hmem
    rcases hmem with h | ⟨kv, _, pc, _, hx⟩
    · injection h with _ h2
      rw [h2]; exact le_refl _
    · injection hx with h1 _
      exact absurd h1 (by simp)
  | cons l q1 ih =>
    intro t c ht hmem
    obtain ⟨count, cs⟩ := t
    obtain ⟨_, hch⟩ := descending_inv ht
    rw [mem_nodes_mk, mem_childNodes] at hmem
    rcases hmem with h | ⟨kv, hkv, pc, hpc, hx⟩
    · injection h with h1 _
      exact absurd h1 (by simp)
    · obtain ⟨p1, c1⟩ := pc
      simp only [Prod.mk.injEq, List.cons.injEq] at hx
      obtain ⟨⟨_, hq⟩, hc⟩ := hx
      subst hq hc
      obtain ⟨h1, h2⟩ := hch kv hkv
      exact le_trans (ih kv.2 c h2 hpc) h1

theorem report_eq_nil_of_lt (labels : List Bytes) (threshold : Int)
    (ns : List (List Bytes × Int)) (h : ∀ pc ∈ ns, pc.2 < threshold) :
    report labels threshold ns = [] := by
  unfold report
  rw [List.map_eq_nil_iff, List.filter_eq_nil_iff]
  intro pc hpc
  have := h pc hpc
  simp only [Bool.and_eq_true, decide_eq_true_eq, not_and]
  intro h2
  omega

mutual
theorem traversePruned_eq : ∀ (t : TrieNode) (labels : List Bytes) (threshold : Int)
    (w : List Bytes), Descending t → labels ≠ [] →
    traversePruned t labels threshold w = traverseTrie t labels threshold w
  | .mk count children, labels, threshold, w, ht, hne => by
    obtain ⟨_, hch⟩ := descending_inv ht
    have hlen : labels.length > 0 := List.length_pos.mpr hne
    rw [traversePruned]
    by_cases hlt : count < threshold
    · rw [if_pos ⟨hlt, hlen⟩, traverseTrie_eq, report_eq_nil_of_lt]
      · simp
      · intro pc hpc
        have := descending_nodes_le pc.1 (.mk count children) pc.2 ht hpc
        simp only [TrieNode.Count] at this
        omega
    · rw [if_neg (fun h => hlt h.1), traverseTrie]
      have hge : count ≥ threshold ∧ labels.length > 0 := ⟨by omega, hlen⟩
      rw [if_pos hge, if_pos hge, labelsToDomain_eq labels hne]
      simp only
      exact prunedChildren_eq children labels threshold _ (fun kv hkv => (hch kv hkv).2)
theorem prunedChildren_eq : ∀ (cs : List (Bytes × TrieNode)) (labels : List Bytes)
    (threshold : Int) (w : List Bytes), (∀ kv ∈ cs, Descending kv.2) →
    prunedChildren cs labels threshold w = traverseChildren cs labels threshold w
  | [], labels, threshold, w, _ => by
    rw [prunedChildren, traverseChildren]
  | (label, child) :: rest, labels, threshold, w, h => by
    rw [prunedChildren, traverseChildren,
      traversePruned_eq child (labels ++ [label]) threshold w
        (h _ (List.mem_cons_self _ _)) (by simp)]
    cases traverseTrie child (labels ++ [label]) threshold w with
    | none => rfl
    | some w1 =>
      exact prunedChildren_eq rest labels threshold w1
        (fun kv hkv => h kv (List.mem_cons_of_mem _ hkv))
end

theorem countAt_append_le (lines : List Bytes) (t : TrieNode)
    (ht : processLines lines emptyRoot = some t) (p q : List Bytes) (hp : p ≠ []) :
    countAt t (p ++ q) ≤ countAt t p := by
  rw [countAt_built lines t ht p hp, countAt_built lines t ht (p ++ q) (by simp [hp])]
  exact_mod_cast linesThrough_append_le lines p q

/-- C10, as the code has it. In the trie of any list of input lines and for every integer
threshold, when a node below the root has a Count under the threshold so has every
descendant of it, and the traversal that skips the subtree of every such node writes what
traverseTrie writes. -/
theorem pruning_below_root_sound (lines : List Bytes) (threshold : Int) :
    ∃ t, processLines lines emptyRoot = some t ∧
      (∀ p q, p ≠ [] → countAt t p < threshold → countAt t (p ++ q) < threshold) ∧
      traversePruned t [] threshold [] = traverseTrie t [] threshold [] := by
  obtain ⟨t, ht⟩ := processLines_total lines emptyRoot
  refine ⟨t, ht, ?_, ?_⟩
  · intro p q hp hlt
    have := countAt_append_le lines t ht p q hp
    omega
  · have hdesc := rootDescending_processLines lines emptyRoot t
      (by simp [emptyRoot, TrieNode.Children]) ht
    obtain ⟨count, children⟩ := t
    rw [traversePruned, traverseTrie]
    have h0 : ¬ (([] : List Bytes).length > 0) := by simp
    rw [if_neg (fun h => h0 h.2), if_neg (fun h => h0 h.2), if_neg (fun h => h0 h.2)]
    exact prunedChildren_eq children [] threshold [] hdesc

/-- C10 as stated fails at the root: for the one line `a` and threshold 1 the root has
Count 0, under the threshold, and its child `a` has Count 1, which reaches it. -/
theorem pruning_fails_at_root :
    ∃ t, processLines [[97]] emptyRoot = some t ∧
      t.Count < 1 ∧ 1 ≤ countAt t ([] ++ [[97]]) ∧
      traverseTrie t [] 1 [] = some [[97, 10]] := by
  refine ⟨buildTrie [[97]] emptyRoot, processLines_eq _ _, by decide, by decide, ?_⟩
  rw [traverseTrie_eq]
  decide

/-! ## Splitting a written line again -/

theorem lineLabels_eq (line : Bytes) :
    lineLabels line = some (if isBlank line = true then [] else labelPath line) := by
  unfold lineLabels
  rw [trimSpaces_eq]
  simp only
  by_cases hb : isBlank line = true
  · have h0 : (trimSpec line).length = 0 := by
      rw [(trimSpec_eq_nil_iff line).mpr hb]; rfl
    rw [if_pos h0, if_pos hb]
  · have h0 : ¬ (trimSpec line).length = 0 := by
      intro h
      exact hb ((trimSpec_eq_nil_iff line).mp (List.length_eq_zero.mp h))
    rw [if_neg h0, if_neg hb, splitLabels_eq]
    simp only
    rw [reverseLabels_eq]
    rfl

/-- processLine inserts the labels of the Label Splitter. -/
theorem processLine_lineLabels (line : Bytes) (root : TrieNode) :
    processLine line root = (lineLabels line).map (fun labels => insertLoop labels root) := by
  rw [processLine_eq, lineLabels_eq]
  by_cases hb : isBlank line = true
  · simp [hb, insertLoop]
  · simp [hb]

theorem toLowerByte_idem (c : Nat) (hc : c < 256) :
    toLowerByte (toLowerByte c) = toLowerByte c := by
  have h1 := toLowerByte_closed c hc
  have h2 : toLowerByte c < 256 := by
    rw [h1]; split_ifs <;> omega
  rw [toLowerByte_closed _ h2, h1]
  split_ifs <;> omega

theorem isSpaceByte_toLowerByte (c : Nat) (hc : c < 256) :
    isSpaceByte (toLowerByte c) = isSpaceByte c := by
  rw [toLowerByte_closed c hc]
  unfold isSpaceByte
  split_ifs with h
  · have e1 : ((c + 32 == 32) || (c + 32 == 9) || (c + 32 == 13) || (c + 32 == 10)) = false := by
      simp only [Bool.or_eq_false_iff, beq_eq_false_iff_ne, ne_eq]
      omega
    have e2 : ((c == 32) || (c == 9) || (c == 13) || (c == 10)) = false := by
      simp only [Bool.or_eq_false_iff, beq_eq_false_iff_ne, ne_eq]
      omega
    rw [e1, e2]
  · rfl

theorem trimSpec_subset (s : Bytes) : ∀ c ∈ trimSpec s, c ∈ s := by
  intro c hc
  unfold trimSpec at hc
  exact (List.dropWhile_suffix isSpaceByte).subset
    ((List.rdropWhile_prefix isSpaceByte _).subset hc)

theorem trimSpec_last (s : Bytes) (h : trimSpec s ≠ []) :
    isSpaceByte ((trimSpec s).getLast h) = false := by
  have := List.rdropWhile_last_not isSpaceByte (s.dropWhile isSpaceByte) h
  simpa using this

theorem trimSpec_eq_self (s : Bytes) (c : Nat) (rest : Bytes) (hs : s = c :: rest)
    (hhead : isSpaceByte c = false) (hlast : isSpaceByte (s.getLast (by simp [hs])) = false) :
    trimSpec s = s := by
  subst hs
  unfold trimSpec
  have h1 : (c :: rest).dropWhile isSpaceByte = c :: rest := by
    rw [List.dropWhile_cons, hhead]; rfl
  rw [h1, List.rdropWhile_eq_self_iff]
  intro _
  simp [hlast]

theorem joinDots_suffix : ∀ (ls tl : List Bytes), tl ≠ [] → tl <:+ ls →
    joinDots tl <:+ joinDots ls := by
  intro ls
  induction ls with
  | nil =>
    intro tl hne h
    exact absurd (List.suffix_nil.mp h) hne
  | cons l r ih =>
    intro tl hne h
    rcases List.suffix_cons_iff.mp h with h1 | h1
    · rw [h1]
    · cases r with
      | nil => exact absurd (List.suffix_nil.mp h1) hne
      | cons l2 r2 =>
        rw [joinDots]
        refine (ih tl hne h1).trans ?_
        exact ⟨l ++ [46], by simp⟩

/-- The string written for a node of a built trie, when it does not begin with a space
byte, is split by the Label Splitter into the labels of the node. -/
theorem lineLabels_joinDots_of_present (lines : List Bytes)
    (hbytes : ∀ ln ∈ lines, ∀ c ∈ ln, c < 256)
    (t : TrieNode) (ht : processLines lines emptyRoot = some t) (p : List Bytes) (hp : p ≠ [])
    (hpres : present t p = true) (c : Nat) (rest : Bytes)
    (hs : joinDots p.reverse = c :: rest) (hhead : isSpaceByte c = false) :
    lineLabels (joinDots p.reverse) = some p := by
  have hdf := built_path_dotfree lines t ht p hp hpres
  rw [present_built lines t ht p hp, List.any_eq_true] at hpres
  obtain ⟨ln, hln, hb⟩ := hpres
  unfold beginsWith at hb
  simp only [Bool.and_eq_true, Bool.not_eq_true', decide_eq_true_eq] at hb
  obtain ⟨hnb, hpre⟩ := hb
  unfold labelPath at hpre
  have hsufL : p.reverse <:+ splitDots (normalise ln) := by
    have := List.reverse_suffix.mpr hpre
    simpa using this
  have hsuf : joinDots p.reverse <:+ normalise ln := by
    have := joinDots_suffix _ _ (by simpa using hp) hsufL
    rwa [joinDots_splitDots] at this
  have hlnb := hbytes ln hln
  have htne : trimSpec ln ≠ [] := by
    intro h
    rw [(trimSpec_eq_nil_iff ln).mp h] at hnb
    exact Bool.noConfusion hnb
  have hnne : normalise ln ≠ [] := by
    unfold normalise
    simpa using htne
  have hnlast : isSpaceByte ((normalise ln).getLast hnne) = false := by
    unfold normalise
    rw [List.getLast_map, isSpaceByte_toLowerByte]
    · exact trimSpec_last ln htne
    · exact hlnb _ (trimSpec_subset ln _ (List.getLast_mem _))
  have hsne : joinDots p.reverse ≠ [] := by rw [hs]; simp
  have hslast : isSpaceByte ((joinDots p.reverse).getLast hsne) = false := by
    rw [hsuf.getLast hsne]
    exact hnlast
  have htrim : trimSpec (joinDots p.reverse) = joinDots p.reverse :=
    trimSpec_eq_self _ c rest hs hhead hslast
  have hfold : (joinDots p.reverse).map toLowerByte = joinDots p.reverse := by
    conv_rhs => rw [← List.map_id (joinDots p.reverse)]
    apply List.map_congr_left
    intro x hx
    have hxn : x ∈ normalise ln := hsuf.subset hx
    unfold normalise at hxn
    obtain ⟨y, hy, hyx⟩ := List.mem_map.mp hxn
    rw [← hyx, id]
    exact toLowerByte_idem y (hlnb y (trimSpec_subset ln y hy))
  have hblank : ¬ isBlank (joinDots p.reverse) = true := by
    intro h
    rw [(trimSpec_eq_nil_iff _).mpr h] at htrim
    exact hsne htrim.symm
  rw [lineLabels_eq, if_neg hblank]
  unfold labelPath normalise
  rw [htrim, hfold, splitDots_joinDots p.reverse (by simpa using hp)
    (fun l hl => hdf l (List.mem_reverse.mp hl))]
  simp

/-- C5, as the code has it. For the trie built by processLine from any list of input byte
strings and any threshold, every line that traverseTrie writes whose string is not empty and
does not begin with a space, tab, carriage return or newline is the string of a node at a
non-empty label path `p` whose Count reaches the threshold, and the Label Splitter of
processLine (trim, skip if empty, case fold, split on the dot, reverse) splits that string
into exactly the labels of `p`, top-level label first. -/
theorem resplit_roundtrip (lines : List Bytes) (hbytes : ∀ ln ∈ lines, ∀ c ∈ ln, c < 256)
    (threshold : Int) (out : List Bytes) (hrun : run lines threshold = some out)
    (c : Nat) (rest : Bytes) (hx : (c :: rest) ++ [10] ∈ out)
    (hhead : isSpaceByte c = false) :
    ∃ t p, processLines lines emptyRoot = some t ∧ p ≠ [] ∧ present t p = true ∧
      threshold ≤ countAt t p ∧ joinDots p.reverse = c :: rest ∧
      lineLabels (c :: rest) = some p := by
  obtain ⟨t, ht, hrun2⟩ := run_eq lines threshold
  rw [hrun2] at hrun
  injection hrun with hrun
  subst hrun
  rw [report_nil_eq, List.mem_map] at hx
  obtain ⟨pc, hpc, hem⟩ := hx
  rw [List.mem_filter] at hpc
  obtain ⟨hmem, hcond⟩ := hpc
  simp only [Bool.and_eq_true, decide_eq_true_eq] at hcond
  have huk := uniqueKeys_processLines lines emptyRoot t uniqueKeys_emptyRoot ht
  obtain ⟨hpres, hcnt⟩ := present_of_mem_nodes huk (p := pc.1) (c := pc.2) hmem
  unfold emitted at hem
  have hs : joinDots pc.1.reverse = c :: rest := List.append_cancel_right hem
  refine ⟨t, pc.1, ht, hcond.2, hpres, ?_, hs, ?_⟩
  · rw [hcnt]; exact hcond.1
  · rw [← hs]
    exact lineLabels_joinDots_of_present lines hbytes t ht pc.1 hcond.2 hpres c rest hs hhead

theorem resplit_roundtrip_witness :
    ∃ t p, processLines [[97, 46, 98]] emptyRoot = some t ∧ p ≠ [] ∧ present t p = true ∧
      (1 : Int) ≤ countAt t p ∧ joinDots p.reverse = [98] ∧ lineLabels [98] = some p :=
  resplit_roundtrip [[97, 46, 98]] (by decide) 1 [[98, 10], [97, 46, 98, 10]]
    (by rw [run_closed]; decide) 98 [] (by decide) (by decide)

/-- C5 as stated fails: for the one input line "a. b" and threshold 1, traverseTrie writes
the line of the node at label path [" b"], whose string is " b"; the Label Splitter of
processLine trims the leading space and yields the single label "b", not " b". -/
theorem resplit_loses_leading_space :
    ∃ t out, processLines [[97, 46, 32, 98]] emptyRoot = some t ∧
      run [[97, 46, 32, 98]] 1 = some out ∧
      present t [[32, 98]] = true ∧ countAt t [[32, 98]] = 1 ∧
      joinDots ([[32, 98]] : List Bytes).reverse ++ [10] ∈ out ∧
      lineLabels (joinDots ([[32, 98]] : List Bytes).reverse) = some [[98]] ∧
      lineLabels (joinDots ([[32, 98]] : List Bytes).reverse) ≠ some [[32, 98]] := by
  refine ⟨_, _, processLines_eq _ _, run_closed _ _, ?_, ?_, ?_, ?_, ?_⟩
  · decide
  · decide
  · decide
  · rw [lineLabels_eq]; decide
  · rw [lineLabels_eq]; decide

/-! ## Blank lines and the root -/

theorem isBlank_of_spaces (line : Bytes)
    (h : ∀ c ∈ line, c = 32 ∨ c = 9 ∨ c = 13 ∨ c = 10) : isBlank line = true := by
  unfold isBlank
  rw [List.all_eq_true]
  intro c hc
  rcases h c hc with h1 | h1 | h1 | h1 <;> subst h1 <;> rfl

theorem processLines_blank : ∀ (lines : List Bytes) (t : TrieNode),
    (∀ line ∈ lines, isBlank line = true) → processLines lines t = some t := by
  intro lines
  induction lines with
  | nil => intro t _; rfl
  | cons line rest ih =>
    intro t h
    rw [processLines_cons, if_pos (h line (by simp))]
    exact ih t (fun l hl => h l (by simp [hl]))

theorem run_blank (lines : List Bytes) (threshold : Int)
    (h : ∀ line ∈ lines, isBlank line = true) : run lines threshold = some [] := by
  unfold run
  rw [processLines_blank lines emptyRoot h]
  simp only [Option.some_bind]
  rw [traverseTrie_eq]
  simp [report, nodes, childNodes, emptyRoot]

/-- C11. Blank lines are no-ops. For every trie and every line made of space, tab,
carriage-return and newline bytes only, processLine returns with the trie as it was: the
same nodes with the same Counts; so does a run of processLine over any number of such
lines, and the empty line is one of them. -/
theorem blank_line_noop (t : TrieNode) (line : Bytes)
    (hblank : ∀ c ∈ line, c = 32 ∨ c = 9 ∨ c = 13 ∨ c = 10) :
    processLine line t = some t ∧
    trimSpaces line = some [] ∧
    processLine [] t = some t ∧
    (∀ N : Nat, processLines (List.replicate N line) t = some t) := by
  have hb := isBlank_of_spaces line hblank
  refine ⟨?_, ?_, ?_, ?_⟩
  · rw [processLine_eq, if_pos hb]
  · rw [trimSpaces_eq, (trimSpec_eq_nil_iff line).mpr hb]
  · rw [processLine_eq]; rfl
  · intro N
    exact processLines_blank _ t (fun l hl => by rw [(List.mem_replicate.mp hl).2]; exact hb)

/-- C11, at the line of a space, a tab, a carriage return and a newline, on the trie that
holds `a` once. -/
theorem blank_line_noop_witness :
    processLine [32, 9, 13, 10] (.mk 0 [([97], .mk 1 [])]) = some (.mk 0 [([97], .mk 1 [])]) ∧
    trimSpaces [32, 9, 13, 10] = some [] ∧
    processLine [] (.mk 0 [([97], .mk 1 [])]) = some (.mk 0 [([97], .mk 1 [])]) ∧
    (∀ N : Nat, processLines (List.replicate N [32, 9, 13, 10]) (.mk 0 [([97], .mk 1 [])])
      = some (.mk 0 [([97], .mk 1 [])])) :=
  blank_line_noop (.mk 0 [([97], .mk 1 [])]) [32, 9, 13, 10] (by decide)

/-- C12. The root is never counted or emitted. After processLine over any list of input
lines the Count of the root is 0; at the root, whatever its Count and for every integer
threshold, traverseTrie writes nothing of its own and goes on to the children; every line
written belongs to a node at a non-empty label path; and when every input line is blank, or
there is none, nothing is written, whatever the threshold. -/
theorem root_never_counted_nor_emitted (lines : List Bytes) (threshold : Int) :
    ∃ t out, processLines lines emptyRoot = some t ∧ run lines threshold = some out ∧
      t.Count = 0 ∧
      (∀ (count : Int) (children : List (Bytes × TrieNode)) (w : List Bytes),
        traverseTrie (.mk count children) [] threshold w
          = traverseChildren children [] threshold w) ∧
      (∀ x ∈ out, ∃ p, p ≠ [] ∧ present t p = true ∧ threshold ≤ countAt t p ∧
        x = joinDots p.reverse ++ [10]) ∧
      ((∀ line ∈ lines, ∀ c ∈ line, isSpaceByte c = true) → out = []) ∧
      run [] threshold = some [] ∧
      run [[], [32, 9, 32]] threshold = some [] := by
  obtain ⟨t, ht, hrun⟩ := run_eq lines threshold
  have huk := uniqueKeys_processLines lines emptyRoot t uniqueKeys_emptyRoot ht
  refine ⟨t, _, ht, hrun, ?_, ?_, ?_, ?_, ?_, ?_⟩
  · have := countAt_root_processLines lines emptyRoot t ht
    simpa [countAt, findNode, emptyRoot, TrieNode.Count] using this
  · intro count children w
    rw [traverseTrie]
    have h0 : ¬ (([] : List Bytes).length > 0) := by simp
    rw [if_neg (fun h => h0 h.2)]
  · intro x hx
    rw [report_nil_eq, List.mem_map] at hx
    obtain ⟨pc, hpc, hem⟩ := hx
    rw [List.mem_filter] at hpc
    obtain ⟨hmem, hcond⟩ := hpc
    simp only [Bool.and_eq_true, decide_eq_true_eq] at hcond
    obtain ⟨hpres, hcnt⟩ := present_of_mem_nodes huk (p := pc.1) (c := pc.2) hmem
    exact ⟨pc.1, hcond.2, hpres, by rw [hcnt]; exact hcond.1, hem.symm⟩
  · intro hblank
    have hb : ∀ line ∈ lines, isBlank line = true := by
      intro line hl
      unfold isBlank
      rw [List.all_eq_true]
      exact hblank line hl
    rw [processLines_blank lines emptyRoot hb] at ht
    injection ht with ht
    rw [← ht]
    simp [report, nodes, childNodes, emptyRoot]
  · exact run_blank [] threshold (by simp)
  · exact run_blank [[], [32, 9, 32]] threshold (by decide)

/-! ## The labels of a line -/

theorem splitDots_length : ∀ (l : Bytes), (splitDots l).length = l.count 46 + 1 := by
  intro l
  induction l with
  | nil => rfl
  | cons c rest ih =>
    rw [splitDots]
    by_cases hc : c = 46
    · subst hc
      simp [ih]
    · rw [if_neg hc, List.count_cons_of_ne (fun h => hc h.symm)]
      cases hs : splitDots rest with
      | nil => exact absurd hs (splitDots_ne_nil rest)
      | cons l ls =>
        rw [hs] at ih
        simpa using ih

theorem splitDots_append_dot : ∀ (pre rest : Bytes),
    splitDots (pre ++ 46 :: rest) = splitDots pre ++ splitDots rest := by
  intro pre rest
  induction pre with
  | nil => simp [splitDots]
  | cons c pre ih =>
    rw [List.cons_append, splitDots, splitDots]
    by_cases hc : c = 46
    · rw [if_pos hc, if_pos hc, ih]
      rfl
    · rw [if_neg hc, if_neg hc, ih]
      cases hs : splitDots pre with
      | nil => exact absurd hs (splitDots_ne_nil pre)
      | cons l ls => rfl

/-- C13. Splitting preserves empty labels. For every byte string splitLabels returns, in
left-to-right order (joined by dots they give the line back), one label more than the line
has dot bytes, none holding a dot; the first label is empty when the line begins with a dot,
the last when it ends in one, and the label between two adjacent dots is empty. The line
`.example.com` splits into the empty label, `example` and `com`, and processLine on the empty
trie makes the path `com`, `example`, empty label, each node with Count 1. -/
theorem splitLabels_keeps_empty_labels :
    (∀ line : Bytes, ∃ labels, splitLabels line = some labels ∧
      labels.length = line.count 46 + 1 ∧
      (∀ l ∈ labels, 46 ∉ l) ∧
      joinDots labels = line ∧
      (∀ rest, line = 46 :: rest → labels.head? = some []) ∧
      (∀ pre, line = pre ++ [46] → labels.getLast? = some []) ∧
      (∀ pre post, line = pre ++ 46 :: 46 :: post → labels[pre.count 46 + 1]? = some [])) ∧
    splitLabels [46, 101, 120, 97, 109, 112, 108, 101, 46, 99, 111, 109]
      = some [[], [101, 120, 97, 109, 112, 108, 101], [99, 111, 109]] ∧
    processLine [46, 101, 120, 97, 109, 112, 108, 101, 46, 99, 111, 109] emptyRoot
      = some (.mk 0 [([99, 111, 109],
          .mk 1 [([101, 120, 97, 109, 112, 108, 101], .mk 1 [([], .mk 1 [])])])]) := by
  refine ⟨?_, ?_, ?_⟩
  · intro line
    refine ⟨splitDots line, splitLabels_eq line, splitDots_length line,
      splitDots_labels_dotfree line, joinDots_splitDots line, ?_, ?_, ?_⟩
    · intro rest h
      subst h
      simp [splitDots]
    · intro pre h
      subst h
      rw [splitDots_append_dot]
      simp [splitDots]
    · intro pre post h
      subst h
      rw [splitDots_append_dot, ← splitDots_length pre, List.getElem?_append_right (le_refl _)]
      simp [splitDots]
  · rw [splitLabels_eq]; rfl
  · rw [processLine_eq]; rfl

/-! ## The contract of trimSpaces -/

theorem rdropWhile_append_rtakeWhile {α : Type} (p : α → Bool) (l : List α) :
    l.rdropWhile p ++ l.rtakeWhile p = l := by
  unfold List.rdropWhile List.rtakeWhile
  rw [← List.reverse_append, List.takeWhile_append_dropWhile, List.reverse_reverse]

theorem trimSpec_head (b : Bytes) (c : Nat) (h : (trimSpec b).head? = some c) :
    isSpaceByte c = false := by
  unfold trimSpec at h
  have hpre : (b.dropWhile isSpaceByte).rdropWhile isSpaceByte <+: b.dropWhile isSpaceByte :=
    List.rdropWhile_prefix _ _
  cases hd : b.dropWhile isSpaceByte with
  | nil => rw [hd] at h; simp at h
  | cons d rest =>
    have hdn : isSpaceByte d = false := by
      have := List.head_dropWhile_not isSpaceByte b (by rw [hd]; simp)
      simpa [hd] using this
    rw [hd] at h hpre
    cases hr : (d :: rest).rdropWhile isSpaceByte with
    | nil => rw [hr] at h; simp at h
    | cons e rest2 =>
      rw [hr] at h hpre
      obtain ⟨t, ht⟩ := hpre
      simp only [List.cons_append, List.cons.injEq] at ht
      simp only [List.head?_cons, Option.some.injEq] at h
      rw [← h, ht.1]
      exact hdn

/-- C14. The specification of trimSpaces. For every byte string `b`, trimSpaces returns
(no index or slice bound is out of range) the part `r` of `b = pre ++ r ++ post` where `pre`
and `post` hold space, tab, carriage-return and newline bytes only; `r` is empty exactly
when `b` holds such bytes only, and otherwise neither the first nor the last byte of `r` is
such a byte, so `pre` and `post` are the maximal runs and what lies between is kept;
trimSpaces of `r` is `r`. -/
theorem trimSpaces_spec (b : Bytes) :
    ∃ r, trimSpaces b = some r ∧
      (∃ pre post, b = pre ++ r ++ post ∧ (∀ c ∈ pre, isSpaceByte c = true) ∧
        (∀ c ∈ post, isSpaceByte c = true)) ∧
      (r = [] ↔ ∀ c ∈ b, isSpaceByte c = true) ∧
      (∀ c, r.head? = some c → isSpaceByte c = false) ∧
      (∀ c, r.getLast? = some c → isSpaceByte c = false) ∧
      trimSpaces r = some r := by
  have hlast : ∀ c, (trimSpec b).getLast? = some c → isSpaceByte c = false := by
    intro c hc
    have hne : trimSpec b ≠ [] := by
      intro h
      rw [h] at hc
      simp at hc
    rw [List.getLast?_eq_getLast _ hne, Option.some.injEq] at hc
    rw [← hc]
    exact trimSpec_last b hne
  refine ⟨trimSpec b, trimSpaces_eq b, ?_, ?_, trimSpec_head b, hlast, ?_⟩
  · refine ⟨b.takeWhile isSpaceByte, (b.dropWhile isSpaceByte).rtakeWhile isSpaceByte, ?_, ?_, ?_⟩
    · unfold trimSpec
      rw [List.append_assoc, rdropWhile_append_rtakeWhile, List.takeWhile_append_dropWhile]
    · intro c hc
      exact List.mem_takeWhile_imp hc
    · intro c hc
      exact List.mem_rtakeWhile_imp hc
  · rw [trimSpec_eq_nil_iff]
    unfold isBlank
    rw [List.all_eq_true]
  · rw [trimSpaces_eq]
    congr 1
    cases hr : trimSpec b with
    | nil => rfl
    | cons c rest =>
      have hh : isSpaceByte c = false := trimSpec_head b c (by rw [hr]; rfl)
      have hl : isSpaceByte ((c :: rest).getLast (by simp)) = false := by
        apply hlast
        rw [hr, List.getLast?_eq_getLast _ (by simp)]
      exact trimSpec_eq_self (c :: rest) c rest rfl hh hl

/-! ## Lines of one label, and joining what was split -/

theorem normalise_dotfree (line : Bytes) (hbytes : ∀ c ∈ line, c < 256)
    (hdot : 46 ∉ trimSpec line) : 46 ∉ normalise line := by
  unfold normalise
  intro h
  obtain ⟨y, hy, hy46⟩ := List.mem_map.mp h
  have := (toLowerByte_dot_iff y (hbytes y (trimSpec_subset line y hy))).mp hy46
  rw [this] at hy
  exact hdot hy

theorem insertLoop_single (k : Bytes) :
    insertLoop [k] emptyRoot = .mk 0 [(k, .mk 1 [])] := by
  simp [insertLoop, emptyRoot, lookupChild, setChild]

theorem traverse_single (k : Bytes) :
    traverseTrie (.mk 0 [(k, .mk 1 [])]) [] 1 [] = some [k ++ [10]] := by
  rw [traverseTrie_eq]
  simp [report, nodes, childNodes, emitted, joinDots]

/-- C15. Single-label lines. For a line of bytes whose trimmed form `r` is not empty and
holds no dot, processLine on the empty trie gives the trie with one node under the root,
keyed by the case-folded `r` (which holds no dot) and with Count 1 and no child;
traverseTrie with threshold 1 on it writes one line, the folded `r`, and so does the whole
run on that one input line. -/
theorem single_label_line (line r : Bytes) (hbytes : ∀ c ∈ line, c < 256)
    (hr : trimSpaces line = some r) (hne : r ≠ []) (hdot : 46 ∉ r) :
    processLine line emptyRoot = some (.mk 0 [(lowerInPlace r, .mk 1 [])]) ∧
    46 ∉ lowerInPlace r ∧
    traverseTrie (.mk 0 [(lowerInPlace r, .mk 1 [])]) [] 1 [] = some [lowerInPlace r ++ [10]] ∧
    run [line] 1 = some [lowerInPlace r ++ [10]] := by
  rw [trimSpaces_eq] at hr
  injection hr with hr
  subst hr
  have hnb : ¬ isBlank line = true := fun h => hne ((trimSpec_eq_nil_iff line).mpr h)
  have hnd : 46 ∉ normalise line := normalise_dotfree line hbytes hdot
  have hpath : labelPath line = [lowerInPlace (trimSpec line)] := by
    unfold labelPath
    rw [splitDots_dotfree _ hnd]
    rfl
  have hproc : processLine line emptyRoot
      = some (.mk 0 [(lowerInPlace (trimSpec line), .mk 1 [])]) := by
    rw [processLine_eq, if_neg hnb, hpath, insertLoop_single]
  refine ⟨hproc, hnd, traverse_single _, ?_⟩
  unfold run
  rw [processLines, hproc]
  simp only [Option.some_bind, processLines]
  exact traverse_single _

/-- C15, at the line `localhost`. -/
theorem single_label_line_witness :
    processLine [108, 111, 99, 97, 108, 104, 111, 115, 116] emptyRoot
      = some (.mk 0 [(lowerInPlace [108, 111, 99, 97, 108, 104, 111, 115, 116], .mk 1 [])]) ∧
    46 ∉ lowerInPlace [108, 111, 99, 97, 108, 104, 111, 115, 116] ∧
    traverseTrie (.mk 0 [(lowerInPlace [108, 111, 99, 97, 108, 104, 111, 115, 116], .mk 1 [])])
        [] 1 []
      = some [lowerInPlace [108, 111, 99, 97, 108, 104, 111, 115, 116] ++ [10]] ∧
    run [[108, 111, 99, 97, 108, 104, 111, 115, 116]] 1
      = some [lowerInPlace [108, 111, 99, 97, 108, 104, 111, 115, 116] ++ [10]] :=
  single_label_line [108, 111, 99, 97, 108, 104, 111, 115, 116]
    [108, 111, 99, 97, 108, 104, 111, 115, 116] (by decide)
    (by rw [trimSpaces_eq]; decide) (by decide) (by decide)

/-- C16. Join undoes split. For every byte string `l` (the empty one too) joinLabels of
splitLabels of `l` is `l`, and so is labelsToDomain of the reversed labels; for every
non-empty list of labels that hold no dot, splitLabels of their joinLabels is the list; and
for a line whose trimmed form `r` is not empty, the node at the full label path of the line
is in the trie after processLine and labelsToDomain of that path, which is what traverseTrie
writes for the node, is the case-folded `r`. -/
theorem join_undoes_split :
    (∀ l : Bytes, ∃ labels, splitLabels l = some labels ∧ joinLabels labels = some l ∧
      labelsToDomain labels.reverse = some l) ∧
    (∀ ls : List Bytes, ls ≠ [] → (∀ x ∈ ls, 46 ∉ x) →
      ∃ s, joinLabels ls = some s ∧ splitLabels s = some ls) ∧
    (∀ (line r : Bytes) (t : TrieNode), trimSpaces line = some r → r ≠ [] →
      ∃ labels t1, lineLabels line = some labels ∧ labels ≠ [] ∧
        processLine line t = some t1 ∧ present t1 labels = true ∧
        labelsToDomain labels = some (lowerInPlace r)) ∧
    labelsToDomain [[99, 111, 109], [102, 111, 111]] = some [102, 111, 111, 46, 99, 111, 109] ∧
    (∃ s, joinLabels [[102, 111, 111], [], [99]] = some s ∧
      splitLabels s = some [[102, 111, 111], [], [99]]) := by
  refine ⟨?_, ?_, ?_, ?_, ?_⟩
  · intro l
    refine ⟨splitDots l, splitLabels_eq l, ?_, ?_⟩
    · rw [joinLabels_eq _ (splitDots_ne_nil l), joinDots_splitDots]
    · rw [labelsToDomain_eq _ (by simpa using splitDots_ne_nil l), List.reverse_reverse,
        joinDots_splitDots]
  · intro ls hne hdf
    exact ⟨joinDots ls, joinLabels_eq ls hne, by rw [splitLabels_eq, splitDots_joinDots ls hne hdf]⟩
  · intro line r t hr hne
    rw [trimSpaces_eq] at hr
    injection hr with hr
    subst hr
    have hnb : ¬ isBlank line = true := fun h => hne ((trimSpec_eq_nil_iff line).mpr h)
    have hpne : labelPath line ≠ [] := by
      unfold labelPath
      simpa using splitDots_ne_nil (normalise line)
    refine ⟨labelPath line, insertLoop (labelPath line) t, ?_, hpne, ?_, ?_, ?_⟩
    · rw [lineLabels_eq, if_neg hnb]
    · rw [processLine_eq, if_neg hnb]
    · rw [present_insertLoop]
      simp
    · rw [labelsToDomain_eq _ hpne]
      unfold labelPath
      rw [List.reverse_reverse, joinDots_splitDots]
      rfl
  · rw [labelsToDomain_eq _ (by simp)]; rfl
  · exact ⟨_, joinLabels_eq _ (by simp), by rw [splitLabels_eq]; rfl⟩

/-! ## The order of the input lines -/

theorem observations_perm (lines lines2 : List Bytes) (hperm : lines.Perm lines2)
    (root t1 t2 : TrieNode) (h1 : processLines lines root = some t1)
    (h2 : processLines lines2 root = some t2) (p : List Bytes) :
    present t1 p = present t2 p ∧ countAt t1 p = countAt t2 p := by
  constructor
  · rw [present_processLines lines root t1 h1 p, present_processLines lines2 root t2 h2 p]
    congr 1
    rw [Bool.eq_iff_iff, List.any_eq_true, List.any_eq_true]
    constructor
    · rintro ⟨x, hx, hb⟩
      exact ⟨x, hperm.mem_iff.mp hx, hb⟩
    · rintro ⟨x, hx, hb⟩
      exact ⟨x, hperm.mem_iff.mpr hx, hb⟩
  · by_cases hp : p = []
    · subst hp
      rw [countAt_root_processLines lines root t1 h1,
        countAt_root_processLines lines2 root t2 h2]
    · rw [countAt_processLines lines root t1 h1 p hp,
        countAt_processLines lines2 root t2 h2 p hp]
      unfold linesThrough
      rw [hperm.countP_eq]

theorem nodes_perm {t1 t2 : TrieNode} (hu1 : UniqueKeys t1) (hu2 : UniqueKeys t2)
    (h : ∀ p, present t1 p = present t2 p ∧ countAt t1 p = countAt t2 p) :
    (nodes t1).Perm (nodes t2) := by
  rw [List.perm_ext_iff_of_nodup (List.Nodup.of_map _ (nodup_nodes t1 hu1))
    (List.Nodup.of_map _ (nodup_nodes t2 hu2))]
  intro pc
  obtain ⟨p, c⟩ := pc
  constructor
  · intro hm
    obtain ⟨hp, hc⟩ := present_of_mem_nodes hu1 hm
    rw [(h p).1] at hp
    rw [(h p).2] at hc
    rw [← hc]
    exact mem_nodes_of_present hu2 hp
  · intro hm
    obtain ⟨hp, hc⟩ := present_of_mem_nodes hu2 hm
    rw [← (h p).1] at hp
    rw [← (h p).2] at hc
    rw [← hc]
    exact mem_nodes_of_present hu1 hp

theorem report_perm (labels : List Bytes) (threshold : Int) {a b : List (List Bytes × Int)}
    (h : a.Perm b) : (report labels threshold a).Perm (report labels threshold b) := by
  unfold report
  exact (h.filter _).map _

/-- C17. Order independence. For every two lines `x`, `y` and every trie, processLine on
`x` then `y` and on `y` then `x` give tries with the same nodes and the same Counts; for
every list of lines and every permutation of it, from any root, the tries have the same
nodes and Counts and, where the Children maps of the root hold no key twice, traverseTrie
writes the same lines the same number of times for every threshold; so does the whole
run. The tries are compared by label path: the order within a Children map is not part of
a Go map. -/
theorem order_independent (lines lines2 : List Bytes) (hperm : lines.Perm lines2) :
    (∀ (x y : Bytes) (t : TrieNode), ∃ t1 t2,
      (processLine x t).bind (processLine y) = some t1 ∧
      (processLine y t).bind (processLine x) = some t2 ∧
      ∀ p, present t1 p = present t2 p ∧ countAt t1 p = countAt t2 p) ∧
    (∀ root : TrieNode, ∃ t1 t2, processLines lines root = some t1 ∧
      processLines lines2 root = some t2 ∧
      (∀ p, present t1 p = present t2 p ∧ countAt t1 p = countAt t2 p) ∧
      (UniqueKeys root → ∀ threshold : Int, ∃ o1 o2,
        traverseTrie t1 [] threshold [] = some o1 ∧
        traverseTrie t2 [] threshold [] = some o2 ∧ o1.Perm o2)) ∧
    (∀ threshold : Int, ∃ o1 o2, run lines threshold = some o1 ∧
      run lines2 threshold = some o2 ∧ o1.Perm o2) := by
  have hgen : ∀ (l1 l2 : List Bytes), l1.Perm l2 → ∀ root : TrieNode, ∃ t1 t2,
      processLines l1 root = some t1 ∧ processLines l2 root = some t2 ∧
      (∀ p, present t1 p = present t2 p ∧ countAt t1 p = countAt t2 p) ∧
      (UniqueKeys root → ∀ threshold : Int, ∃ o1 o2,
        traverseTrie t1 [] threshold [] = some o1 ∧
        traverseTrie t2 [] threshold [] = some o2 ∧ o1.Perm o2) := by
    intro l1 l2 hp root
    obtain ⟨t1, h1⟩ := processLines_total l1 root
    obtain ⟨t2, h2⟩ := processLines_total l2 root
    have hobs := observations_perm l1 l2 hp root t1 t2 h1 h2
    refine ⟨t1, t2, h1, h2, hobs, ?_⟩
    intro hu threshold
    have hu1 := uniqueKeys_processLines l1 root t1 hu h1
    have hu2 := uniqueKeys_processLines l2 root t2 hu h2
    refine ⟨_, _, traverseTrie_eq t1 [] threshold [], traverseTrie_eq t2 [] threshold [], ?_⟩
    simpa using report_perm [] threshold (nodes_perm hu1 hu2 hobs)
  refine ⟨?_, hgen lines lines2 hperm, ?_⟩
  · intro x y t
    obtain ⟨t1, t2, h1, h2, hobs, _⟩ := hgen [x, y] [y, x] (List.Perm.swap y x []) t
    refine ⟨t1, t2, ?_, ?_, hobs⟩
    · rw [← h1]
      cases hx : processLine x t with
      | none => simp [processLines, hx]
      | some a =>
        cases hy : processLine y a with
        | none => simp [processLines, hx, hy]
        | some b => simp [processLines, hx, hy]
    · rw [← h2]
      cases hy : processLine y t with
      | none => simp [processLines, hy]
      | some a =>
        cases hx : processLine x a with
        | none => simp [processLines, hx, hy]
        | some b => simp [processLines, hx, hy]
  · intro threshold
    obtain ⟨t1, t2, h1, h2, _, htr⟩ := hgen lines lines2 hperm emptyRoot
    obtain ⟨o1, o2, ho1, ho2, hp⟩ := htr uniqueKeys_emptyRoot threshold
    refine ⟨o1, o2, ?_, ?_, hp⟩
    · unfold run
      rw [h1]
      exact ho1
    · unfold run
      rw [h2]
      exact ho2

/-- C17, at the lines `a.b`, `c.b` and the same two lines swapped. -/
theorem order_independent_witness :
    (∀ (x y : Bytes) (t : TrieNode), ∃ t1 t2,
      (processLine x t).bind (processLine y) = some t1 ∧
      (processLine y t).bind (processLine x) = some t2 ∧
      ∀ p, present t1 p = present t2 p ∧ countAt t1 p = countAt t2 p) ∧
    (∀ root : TrieNode, ∃ t1 t2, processLines [[97, 46, 98], [99, 46, 98]] root = some t1 ∧
      processLines [[99, 46, 98], [97, 46, 98]] root = some t2 ∧
      (∀ p, present t1 p = present t2 p ∧ countAt t1 p = countAt t2 p) ∧
      (UniqueKeys root → ∀ threshold : Int, ∃ o1 o2,
        traverseTrie t1 [] threshold [] = some o1 ∧
        traverseTrie t2 [] threshold [] = some o2 ∧ o1.Perm o2)) ∧
    (∀ threshold : Int, ∃ o1 o2, run [[97, 46, 98], [99, 46, 98]] threshold = some o1 ∧
      run [[99, 46, 98], [97, 46, 98]] threshold = some o2 ∧ o1.Perm o2) :=
  order_independent [[97, 46, 98], [99, 46, 98]] [[99, 46, 98], [97, 46, 98]]
    (List.Perm.swap _ _ [])

/-! ## Every node is counted -/

/-- C18. Every stored node is counted. In the trie of any list of input lines every node
below the root has Count at least 1; so for every threshold up to 1 the run writes the line
of every node below the root, and with it the line of every domain suffix of every input
line that is not blank. -/
theorem every_node_counted (lines : List Bytes) :
    ∃ t, processLines lines emptyRoot = some t ∧
      (∀ p n, p ≠ [] → findNode t p = some n → 1 ≤ n.Count) ∧
      (∀ threshold : Int, threshold ≤ 1 → ∃ out, run lines threshold = some out ∧
        (∀ p, p ≠ [] → present t p = true → joinDots p.reverse ++ [10] ∈ out) ∧
        (∀ line ∈ lines, (∃ c ∈ line, isSpaceByte c = false) →
          ∀ s ∈ suffixesOf line, s ++ [10] ∈ out)) := by
  obtain ⟨t, ht⟩ := processLines_total lines emptyRoot
  have huk := uniqueKeys_processLines lines emptyRoot t uniqueKeys_emptyRoot ht
  have hcount : ∀ p, p ≠ [] → present t p = true → 1 ≤ countAt t p := by
    intro p hp hpres
    rw [present_built lines t ht p hp] at hpres
    rw [countAt_built lines t ht p hp]
    have := (linesThrough_pos_iff lines p).mpr hpres
    exact_mod_cast this
  refine ⟨t, ht, ?_, ?_⟩
  · intro p n hp hn
    have := hcount p hp (by simp [present, hn])
    simpa [countAt, hn] using this
  · intro threshold hth
    obtain ⟨t2, ht2, hrun⟩ := run_eq lines threshold
    rw [ht] at ht2
    injection ht2 with ht2
    subst ht2
    refine ⟨_, hrun, ?_, ?_⟩
    · intro p hp hpres
      rw [report_nil_eq, List.mem_map]
      refine ⟨(p, countAt t p), ?_, rfl⟩
      rw [List.mem_filter]
      refine ⟨mem_nodes_of_present huk hpres, ?_⟩
      have := hcount p hp hpres
      simp only [Bool.and_eq_true, decide_eq_true_eq]
      exact ⟨by omega, hp⟩
    · intro line hline hnb s hs
      have hsuf : hasSuffix s line = true := by
        unfold hasSuffix
        obtain ⟨c, hc, hcs⟩ := hnb
        have hb : isBlank line = false := by
          unfold isBlank
          rw [Bool.eq_false_iff]
          intro hall
          rw [List.all_eq_true] at hall
          rw [hall c hc] at hcs
          exact Bool.noConfusion hcs
        simp [hb, hs]
      have hocc : 1 ≤ occurrences lines s := by
        unfold occurrences
        exact List.countP_pos_iff.mpr ⟨line, hline, hsuf⟩
      have hcnt := report_count lines t ht threshold s
      rw [if_pos ⟨hocc, by omega⟩] at hcnt
      exact List.count_pos_iff.mp (by omega)

/-! ## The bounds of joinLabels -/

theorem copyChecked_eq (done zeros l : Bytes) (h : l.length ≤ zeros.length) :
    copyChecked (done ++ zeros) done.length l = some (done ++ l ++ zeros.drop l.length) := by
  unfold copyChecked
  rw [if_pos (by simp; omega)]
  exact copyAt_eq done zeros l h

theorem joinLoopChecked_eq (n : Nat) : ∀ (rest : List Bytes) (i : Nat) (done zeros : Bytes),
    i + rest.length = n → rest ≠ [] → zeros.length = (joinDots rest).length →
    joinLoopChecked n rest i (done ++ zeros) done.length = some (done ++ joinDots rest) := by
  intro rest
  induction rest with
  | nil => intro i done zeros _ h; exact absurd rfl h
  | cons l r ih =>
    intro i done zeros hn _ hz
    cases r with
    | nil =>
      simp only [joinDots] at hz
      rw [joinLoopChecked, copyChecked_eq done zeros l (by omega)]
      simp only
      have hi : ¬ ((i : Int) < (n : Int) - 1) := by simp at hn; omega
      rw [if_neg hi, joinLoopChecked, List.drop_of_length_le (by omega)]
      simp [joinDots]
    | cons l2 r2 =>
      simp only [joinDots, List.length_append, List.length_cons] at hz
      rw [joinLoopChecked, copyChecked_eq done zeros l (by omega)]
      simp only
      have hi : (i : Int) < (n : Int) - 1 := by simp at hn; omega
      have hlen : done.length + l.length < (done ++ l ++ zeros.drop l.length).length := by
        simp; omega
      rw [if_pos hi, if_pos hlen]
      have hset : (done ++ l ++ zeros.drop l.length).set (done.length + l.length) 46
          = (done ++ l ++ [46]) ++ zeros.drop (l.length + 1) := by
        have hlt : l.length < zeros.length := by omega
        have hd : zeros.drop l.length = zeros[l.length] :: zeros.drop (l.length + 1) :=
          List.drop_eq_getElem_cons hlt
        have e0 : done.length + l.length - (done ++ l).length = 0 := by simp
        rw [hd, List.set_append_right _ _ (by simp), e0, List.set_cons_zero]
        simp
      rw [hset]
      have h := ih (i + 1) (done ++ l ++ [46]) (zeros.drop (l.length + 1))
        (by simp at hn ⊢; omega) (by simp) (by simp; omega)
      have e : (done ++ l ++ [46]).length = done.length + l.length + 1 := by simp; omega
      rw [e] at h
      rw [h]
      simp [joinDots]

theorem joinLabelsChecked_eq (ls : List Bytes) (h : ls ≠ []) :
    joinLabelsChecked ls = some (joinDots ls) := by
  unfold joinLabelsChecked
  simp only
  rw [joinTotalLen_eq ls h, if_neg (by omega), Int.toNat_ofNat]
  have := joinLoopChecked_eq ls.length ls 0 [] (List.replicate (joinDots ls).length 0)
    (by simp) h (by simp)
  simpa using this

theorem joinTotalLen_sum (ls : List Bytes) :
    joinTotalLen ls = ((ls.map List.length).sum : Int) + (ls.length : Int) - 1 := by
  unfold joinTotalLen
  induction ls with
  | nil => simp
  | cons l r ih =>
    rw [List.foldl_cons, foldl_len_shift]
    simp only [List.map_cons, List.sum_cons, List.length_cons]
    omega

/-- C19. joinLabels is safe where it is reached. For every non-empty list of labels
`totalLen` is the sum of the label lengths plus the number of labels less 1 and is not
negative; joinLabels returns, no copy is cut short and no dot is written outside the buffer
(the loop that demands room for every copied byte returns the same string); the string has
length `totalLen`. For the empty list `totalLen` is -1 and joinLabels and labelsToDomain
fail; traverseTrie at the empty label list goes to the children without a call of
labelsToDomain, and traverseTrie returns for every trie, label list and threshold, so the
failure is not reached from it. -/
theorem joinLabels_safe :
    (∀ ls : List Bytes, ls ≠ [] → ∃ s, joinLabels ls = some s ∧
      joinLabelsChecked ls = some s ∧
      joinTotalLen ls = ((ls.map List.length).sum : Int) + (ls.length : Int) - 1 ∧
      0 ≤ joinTotalLen ls ∧ (s.length : Int) = joinTotalLen ls) ∧
    joinTotalLen [] = -1 ∧ joinLabels [] = none ∧ labelsToDomain [] = none ∧
    (∀ (count : Int) (children : List (Bytes × TrieNode)) (threshold : Int) (w : List Bytes),
      traverseTrie (.mk count children) [] threshold w
        = traverseChildren children [] threshold w) ∧
    (∀ (count : Int) (children : List (Bytes × TrieNode)) (labels : List Bytes)
      (threshold : Int) (w : List Bytes), labels ≠ [] → count ≥ threshold →
      ∃ s, labelsToDomain labels = some s ∧
        traverseTrie (.mk count children) labels threshold w
          = traverseChildren children labels threshold (w ++ [s ++ [10]])) ∧
    (∀ (t : TrieNode) (labels : List Bytes) (threshold : Int) (w : List Bytes),
      ∃ out, traverseTrie t labels threshold w = some out) ∧
    joinLabels [[119, 119, 119], [], [99, 111, 109]]
      = some [119, 119, 119, 46, 46, 99, 111, 109] := by
  refine ⟨?_, by decide, joinLabels_nil, labelsToDomain_nil, ?_, ?_, ?_, ?_⟩
  · intro ls hne
    have hlen := joinTotalLen_eq ls hne
    refine ⟨joinDots ls, joinLabels_eq ls hne, joinLabelsChecked_eq ls hne,
      joinTotalLen_sum ls, ?_, hlen.symm⟩
    rw [hlen]
    exact Int.natCast_nonneg _
  · intro count children threshold w
    rw [traverseTrie]
    have h0 : ¬ (([] : List Bytes).length > 0) := by simp
    rw [if_neg (fun h => h0 h.2)]
  · intro count children labels threshold w hne hc
    refine ⟨joinDots labels.reverse, labelsToDomain_eq labels hne, ?_⟩
    rw [traverseTrie, if_pos ⟨hc, List.length_pos.mpr hne⟩, labelsToDomain_eq labels hne]
  · intro t labels threshold w
    exact ⟨_, traverseTrie_eq t labels threshold w⟩
  · rw [joinLabels_eq _ (by simp)]; rfl

/-! ## The increment as a Go `int` -/

theorem wrapInt64_eq (x : Int) (h1 : minInt64 ≤ x) (h2 : x ≤ maxInt64) : wrapInt64 x = x := by
  unfold wrapInt64
  unfold minInt64 at h1
  unfold maxInt64 at h2
  omega

theorem processLineWrap_eq (line : Bytes) (root : TrieNode) :
    processLineWrap line root
      = some (if isBlank line = true then root else insertLoopWrap (labelPath line) root) := by
  unfold processLineWrap
  rw [trimSpaces_eq]
  simp only
  by_cases hb : isBlank line = true
  · have h0 : (trimSpec line).length = 0 := by
      rw [(trimSpec_eq_nil_iff line).mpr hb]; rfl
    rw [if_pos h0, if_pos hb]
  · have h0 : ¬ (trimSpec line).length = 0 := by
      intro h
      exact hb ((trimSpec_eq_nil_iff line).mp (List.length_eq_zero.mp h))
    rw [if_neg h0, if_neg hb, splitLabels_eq]
    simp only
    rw [reverseLabels_eq]
    rfl

theorem processLinesWrap_cons (line : Bytes) (rest : List Bytes) (root : TrieNode) :
    processLinesWrap (line :: rest) root
      = processLinesWrap rest
          (if isBlank line = true then root else insertLoopWrap (labelPath line) root) := by
  rw [processLinesWrap, processLineWrap_eq]
  rfl

/-- The Count at `label :: p` is the Count at `p` under the child that the loop goes to. -/
theorem countAt_child (count : Int) (children : List (Bytes × TrieNode)) (label : Bytes)
    (c : Int) (ch : List (Bytes × TrieNode))
    (hch : (lookupChild children label).getD (.mk 0 []) = .mk c ch) (p : List Bytes) :
    countAt (.mk count children) (label :: p) = countAt (.mk c ch) p := by
  simp only [countAt, findNode]
  cases hlk : lookupChild children label with
  | none =>
    rw [hlk] at hch
    simp only [Option.getD_none] at hch
    injection hch with h1 h2
    subst h1 h2
    cases p with
    | nil => simp [findNode, TrieNode.Count]
    | cons a b => simp [findNode, lookupChild]
  | some child =>
    rw [hlk] at hch
    simp only [Option.getD_some] at hch
    rw [hch]

/-- Where no Count on the path is at `maxInt64`, the increment does not wrap and the loop
over Go `int` is the loop over the integers. -/
theorem insertLoopWrap_eq : ∀ (r : List Bytes) (t : TrieNode),
    (∀ p, p ≠ [] → p <+: r → minInt64 ≤ countAt t p ∧ countAt t p < maxInt64) →
    insertLoopWrap r t = insertLoop r t := by
  intro r
  induction r with
  | nil => intro t _; rfl
  | cons label rest ih =>
    intro t h
    obtain ⟨count, children⟩ := t
    cases hch : (lookupChild children label).getD (.mk 0 []) with
    | mk c ch =>
      have hc := h [label] (by simp) (by simp)
      rw [countAt_child count children label c ch hch []] at hc
      have hcc : countAt (.mk c ch) [] = c := by simp [countAt, findNode, TrieNode.Count]
      rw [hcc] at hc
      have hw : wrapInt64 (c + 1) = c + 1 := by
        apply wrapInt64_eq
        · have := hc.1
          unfold minInt64 at this ⊢
          omega
        · have := hc.2
          unfold maxInt64 at this ⊢
          omega
      have hrest : insertLoopWrap rest (.mk (c + 1) ch) = insertLoop rest (.mk (c + 1) ch) := by
        apply ih
        intro p hp hpre
        have hp2 := h (label :: p) (by simp) (by rw [List.cons_prefix_cons]; exact ⟨rfl, hpre⟩)
        rw [countAt_child count children label c ch hch p] at hp2
        have hsame : countAt (.mk (c + 1) ch) p = countAt (.mk c ch) p := by
          cases p with
          | nil => exact absurd rfl hp
          | cons a b => simp [countAt, findNode]
        rw [hsame]
        exact hp2
      simp only [insertLoopWrap, insertLoop, hch, hw, hrest]

theorem countAt_replicate (line : Bytes) (hnb : ¬ isBlank line = true) :
    ∀ (k : Nat) (t : TrieNode), ∃ tk, processLines (List.replicate k line) t = some tk ∧
      ∀ p, countAt tk p
        = countAt t p + (k : Int) * (if p ≠ [] ∧ p <+: labelPath line then 1 else 0) := by
  intro k
  induction k with
  | zero => intro t; exact ⟨t, rfl, fun p => by simp⟩
  | succ k ih =>
    intro t
    obtain ⟨tk, htk, hcount⟩ := ih (insertLoop (labelPath line) t)
    refine ⟨tk, ?_, ?_⟩
    · rw [List.replicate_succ, processLines_cons, if_neg hnb]
      exact htk
    · intro p
      rw [hcount p, countAt_insertLoop]
      push_cast
      split <;> ring

/-- While the Counts on the path of a line leave room for `k` increments, `k` rounds of
processLine over Go `int` are `k` rounds over the integers. -/
theorem processLinesWrap_replicate (line : Bytes) (hnb : ¬ isBlank line = true) :
    ∀ (k : Nat) (t : TrieNode),
    (∀ p, p ≠ [] → p <+: labelPath line →
      minInt64 ≤ countAt t p ∧ countAt t p + (k : Int) ≤ maxInt64) →
    processLinesWrap (List.replicate k line) t = processLines (List.replicate k line) t := by
  intro k
  induction k with
  | zero => intro t _; rfl
  | succ k ih =>
    intro t h
    have hstep : insertLoopWrap (labelPath line) t = insertLoop (labelPath line) t := by
      apply insertLoopWrap_eq
      intro p hp hpre
      have := h p hp hpre
      push_cast at this
      exact ⟨this.1, by omega⟩
    rw [List.replicate_succ, processLinesWrap_cons, processLines_cons, if_neg hnb, if_neg hnb,
      hstep]
    apply ih
    intro p hp hpre
    have := h p hp hpre
    push_cast at this
    rw [countAt_insertLoop, if_pos ⟨hp, hpre⟩]
    unfold minInt64 at this ⊢
    constructor <;> omega

theorem buildTrie_concat : ∀ (done : List Bytes) (line : Bytes) (root : TrieNode),
    buildTrie (done ++ [line]) root
      = (if isBlank line = true then buildTrie done root
         else insertLoop (labelPath line) (buildTrie done root)) := by
  intro done
  induction done with
  | nil => intro line root; rfl
  | cons d rest ih =>
    intro line root
    rw [List.cons_append, buildTrie, ih, buildTrie]

/-- The unbounded Count of the model is the Go `int` of the program on every input of at
most `maxInt64` lines: read from the empty root, processLine over Go `int` builds the trie
that `processLines` builds. -/
theorem processLinesWrap_eq_processLines (lines : List Bytes)
    (hlen : (lines.length : Int) ≤ maxInt64) :
    processLinesWrap lines emptyRoot = processLines lines emptyRoot := by
  have hgen : ∀ (rest done : List Bytes), ((done ++ rest).length : Int) ≤ maxInt64 →
      processLinesWrap rest (buildTrie done emptyRoot)
        = processLines rest (buildTrie done emptyRoot) := by
    intro rest
    induction rest with
    | nil => intro done _; rfl
    | cons line rest ih =>
      intro done hl
      have hl2 : (((done ++ [line]) ++ rest).length : Int) ≤ maxInt64 := by
        simpa using hl
      have hnext := ih (done ++ [line]) hl2
      rw [buildTrie_concat] at hnext
      rw [processLinesWrap_cons, processLines_cons]
      by_cases hb : isBlank line = true
      · rw [if_pos hb] at hnext ⊢
        rw [if_pos hb]
        exact hnext
      · rw [if_neg hb] at hnext ⊢
        rw [if_neg hb]
        have hstep : insertLoopWrap (labelPath line) (buildTrie done emptyRoot)
            = insertLoop (labelPath line) (buildTrie done emptyRoot) := by
          apply insertLoopWrap_eq
          intro p hp _
          rw [countAt_built done _ (processLines_eq done emptyRoot) p hp]
          have hle : linesThrough done p ≤ done.length := List.countP_le_length _
          simp only [List.length_append, List.length_cons] at hl
          push_cast at hl
          unfold minInt64
          constructor <;> omega
        rw [hstep]
        exact hnext
  exact hgen lines [] (by simpa using hlen)

/-- C4, as the code has it. For every trie, every non-blank line with label path `r` and
every `N`, where the Counts at the non-empty prefixes of `r` are Go `int` values that leave
room for more than `N` increments below `maxInt64`: processLine, with `node.Count++` as
the wrapping increment of a Go `int`, returns a trie in which the Count at every label path
is its Count before plus 1 when the path is a non-empty prefix of `r` and is unchanged
otherwise (no node counting as 0); every node present before is present, no Count is
lower, a node that was not there before lies on `r`; and the same line processed `k` times,
for every `k` up to `N + 1`, adds `k` to the Count of every node on its path. There the
loop over the integers, `processLine`, returns the same trie. -/
theorem processLine_frame (t : TrieNode) (line : Bytes) (hline : isBlank line = false)
    (N : Nat)
    (hrange : ∀ p, p ≠ [] → p <+: labelPath line →
      minInt64 ≤ countAt t p ∧ countAt t p + (N : Int) < maxInt64) :
    ∃ t1, processLineWrap line t = some t1 ∧
      (∀ p, countAt t1 p
        = countAt t p + (if p ≠ [] ∧ p <+: labelPath line then 1 else 0)) ∧
      (∀ p, present t p = true → present t1 p = true) ∧
      (∀ p, countAt t p ≤ countAt t1 p) ∧
      (∀ p, present t1 p = true → present t p = false → p <+: labelPath line) ∧
      (∀ k : Nat, k ≤ N + 1 →
        ∃ tk, processLinesWrap (List.replicate k line) t = some tk ∧
          ∀ p, countAt tk p
            = countAt t p + (k : Int) * (if p ≠ [] ∧ p <+: labelPath line then 1 else 0)) ∧
      processLine line t = some t1 := by
  have hnb : ¬ isBlank line = true := by simp [hline]
  have hstep : insertLoopWrap (labelPath line) t = insertLoop (labelPath line) t := by
    apply insertLoopWrap_eq
    intro p hp hpre
    have := hrange p hp hpre
    exact ⟨this.1, by omega⟩
  refine ⟨insertLoop (labelPath line) t, ?_, ?_, ?_, ?_, ?_, ?_, ?_⟩
  · rw [processLineWrap_eq, if_neg hnb, hstep]
  · exact fun p => countAt_insertLoop _ t p
  · intro p hp
    rw [present_insertLoop, hp]; rfl
  · intro p
    rw [countAt_insertLoop]
    split <;> omega
  · intro p hp hn
    rw [present_insertLoop, hn] at hp
    simpa using hp
  · intro k hk
    obtain ⟨tk, htk, hcount⟩ := countAt_replicate line hnb k t
    refine ⟨tk, ?_, hcount⟩
    rw [processLinesWrap_replicate line hnb k t, htk]
    intro p hp hpre
    have := hrange p hp hpre
    unfold maxInt64 at this ⊢
    exact ⟨this.1, by omega⟩
  · rw [processLine_eq, if_neg hnb]

/-- C4, at the line `a.b`, the empty root and three rounds. -/
theorem processLine_frame_witness :
    ∃ t1, processLineWrap [97, 46, 98] emptyRoot = some t1 ∧
      (∀ p, countAt t1 p
        = countAt emptyRoot p + (if p ≠ [] ∧ p <+: labelPath [97, 46, 98] then 1 else 0)) ∧
      (∀ p, present emptyRoot p = true → present t1 p = true) ∧
      (∀ p, countAt emptyRoot p ≤ countAt t1 p) ∧
      (∀ p, present t1 p = true → present emptyRoot p = false → p <+: labelPath [97, 46, 98]) ∧
      (∀ k : Nat, k ≤ 2 + 1 →
        ∃ tk, processLinesWrap (List.replicate k [97, 46, 98]) emptyRoot = some tk ∧
          ∀ p, countAt tk p = countAt emptyRoot p
            + (k : Int) * (if p ≠ [] ∧ p <+: labelPath [97, 46, 98] then 1 else 0)) ∧
      processLine [97, 46, 98] emptyRoot = some t1 :=
  processLine_frame emptyRoot [97, 46, 98] (by decide) 2
    (by intro p _ _; rw [countAt_emptyRoot]; decide)

/-- C4 as stated fails at a Count of `maxInt64`: on the trie whose node `a` has Count
9223372036854775807 the line `a` is not blank and its label path is `a`, and processLine
leaves the node with Count -9223372036854775808, which is lower and is not the Count
before plus 1. -/
theorem increment_wraps_at_maxInt64 :
    ∃ t1, processLineWrap [97] (.mk 0 [([97], .mk 9223372036854775807 [])]) = some t1 ∧
      isBlank [97] = false ∧ labelPath [97] = [[97]] ∧
      countAt (.mk 0 [([97], .mk 9223372036854775807 [])]) [[97]] = 9223372036854775807 ∧
      countAt t1 [[97]] = -9223372036854775808 ∧
      countAt t1 [[97]] < countAt (.mk 0 [([97], .mk 9223372036854775807 [])]) [[97]] ∧
      countAt t1 [[97]] ≠ countAt (.mk 0 [([97], .mk 9223372036854775807 [])]) [[97]] + 1 := by
  refine ⟨_, processLineWrap_eq _ _, by decide, by decide, by decide, ?_, ?_, ?_⟩
  · decide
  · decide
  · decide

end Subtrie
